import Mathlib

set_option linter.unusedSectionVars false

/-!
Shallow embedding of `src/amico/scheme.py` (class `Scheme`) over an ordered
field `α`.  Tables are lists of rows (lists of `α`), matching the numpy
matrices of the source; numpy guarantees rectangular tables, which theorems
carry as an explicit hypothesis.  The fallible constructor
(`ERROR 'Unrecognized scheme format'` aborts construction) is modelled with
`Option`.  `np.sqrt` (an external array-library operation) is passed to
`to_version_1` as an explicit function argument; theorems about real-valued
schemes instantiate it with `Real.sqrt`.
-/

namespace Amico

variable {α : Type} [LinearOrderedField α] [DecidableEq α]

/-- Entry `j` of a row, `0` out of range (numpy indexing on a well-formed
row never goes out of range; theorems carry the row-length hypothesis). -/
def col (r : List α) (j : ℕ) : α := r.getD j 0

/-- Column count of the table, `shape[1]` in the source (rectangular input). -/
def ncols (data : List (List α)) : ℕ := (data.headD []).length

/-- Running totals of a list: `np.cumsum`, with accumulator `acc`. -/
def cumsum : List α → α → List α
  | [], _ => []
  | x :: xs, acc => (acc + x) :: cumsum xs (acc + x)

/-- Indices (counting from `k`) of the entries satisfying `p`: `np.where`,
which returns the matching indices in ascending order. -/
def whereIdx {β : Type} (p : β → Prop) [DecidablePred p] : List β → ℕ → List ℕ
  | [], _ => []
  | x :: xs, k => if p x then k :: whereIdx p xs (k + 1) else whereIdx p xs (k + 1)

/-- All occurrences of `a` removed from the list. -/
def removeAll {β : Type} [DecidableEq β] (a : β) : List β → List β
  | [] => []
  | x :: xs => if x = a then removeAll a xs else x :: removeAll a xs

/-- The distinct values of a list, each kept at its first occurrence, in
first-occurrence order: this is `np.unique(..., return_index=True)` followed
by re-reading the values at the sorted first-occurrence indices
(source lines 103-105). -/
def firstUniques {β : Type} [DecidableEq β] : List β → List β
  | [] => []
  | x :: xs => x :: removeAll x (firstUniques xs)

/-- Index of the first occurrence of `a` (length of the list if absent). -/
def firstIdx {β : Type} [DecidableEq β] (a : β) : List β → ℕ
  | [] => 0
  | x :: xs => if x = a then 0 else firstIdx a xs + 1

/-- `compute1D_b` (source lines 181-206): b-value of a sampled waveform `g`
with echo time `TE`; `unit` selects the scaling of the returned value.
Constants appear as exact rationals: `gamma = 2.6751987E8 = 267519870`. -/
def compute1D_b (g : List α) (TE : α) (unit : String) : α :=
  let dt : α := TE / (g.length : α)
  let gamma : α := 267519870
  let q : List α := (cumsum g 0).map (fun c => c * dt * gamma)
  let b : α := (q.map (fun x => x * x)).sum * dt
  if unit = "usual" then b / 1000000
  else if unit = "SI" then b
  else b

/-- `compute1D_b` called with its Python default arguments
`TE=0.100, unit='usual'`. -/
def compute1D_b_std (g : List α) : α := compute1D_b g (1 / 10) "usual"

/-- Stejskal-Tanner b-value of a 7-column row (source line 81):
`( 267.513e6 * G * delta )**2 * (Delta - delta/3.0) * 1e-6` with
`G = raw[:,3]`, `Delta = raw[:,4]`, `delta = raw[:,5]`. -/
def bST (r : List α) : α :=
  ((267513000 : α) * col r 3 * col r 5) ^ 2 * (col r 4 - col r 5 / 3) * (1 / 1000000)

/-- Version number and per-row b-values from the column count `M`
(source lines 76-86); `none` is the `ERROR 'Unrecognized scheme format'`. -/
def bvalsOf (M : ℕ) (data : List (List α)) : Option (ℕ × List α) :=
  if M = 4 then some (0, data.map (fun r => col r 3))
  else if M = 7 then some (1, data.map bST)
  else if 7 < M then
    some (2, data.map (fun r => compute1D_b (r.drop 4) (col r 3) "usual"))
  else none

/-- Columns 0-2 of a row negated, the rest untouched. -/
def negRow3 (r : List α) : List α := (r.take 3).map (fun x => -x) ++ r.drop 3

/-- Sign normalization of one row (source lines 96-97): rows whose column 1
is negative have columns 0-2 negated in place. -/
def normalizeRow (r : List α) : List α := if col r 1 < 0 then negRow3 r else r

/-- One shell dictionary (source lines 110-132). -/
structure Shell (α : Type) where
  b : α
  G : Option α
  Delta : Option α
  delta : Option α
  TE : Option α
  wf : Option (List α)
  idx : List ℕ
  grad : List (List α)
  deriving Repr

/-- The shell for one distinct descriptor row `u` (columns 3..end), with `bu`
the b-value of its first occurrence: decoded fields per version, the indices
of all rows whose descriptor equals `u`, and their direction sub-matrix. -/
def mkShell (version : ℕ) (bu : α) (u : List α) (tmp : List (List α))
    (raw : List (List α)) : Shell α :=
  let idx := whereIdx (fun r => r = u) tmp 0
  { b := bu
    G := if version = 0 then none else if version = 1 then some (col u 0) else none
    Delta := if version = 0 then none else if version = 1 then some (col u 1) else none
    delta := if version = 0 then none else if version = 1 then some (col u 2) else none
    TE := if version = 0 then none
          else if version = 1 then some (col u 3) else some (col u 0)
    wf := if version = 0 then none else if version = 1 then none else some (u.drop 1)
    idx := idx
    grad := idx.map (fun i => (raw.getD i []).take 3) }

/-- The loop body of the shell construction for one distinct descriptor `u`:
`continue` (i.e. `none`) when the b-value at `u`'s first occurrence is
`<= b0_thr`, otherwise the shell for `u`. -/
def shellOfUnique (version : ℕ) (b : List α) (b0_thr : α) (raw : List (List α))
    (u : List α) : Option (Shell α) :=
  let bu := b.getD (firstIdx u (raw.map (List.drop 3))) 0
  if bu ≤ b0_thr then none else some (mkShell version bu u (raw.map (List.drop 3)) raw)

/-- The shell list (source lines 100-132): scan the distinct descriptor rows
(columns 3..end of the normalized table) in first-occurrence order, skip the
ones whose b-value is `<= b0_thr`, and build a shell for each of the rest. -/
def shellsOf (version : ℕ) (b : List α) (b0_thr : α)
    (raw : List (List α)) : List (Shell α) :=
  (firstUniques (raw.map (List.drop 3))).filterMap (shellOfUnique version b b0_thr raw)

/-- The constructed scheme: the fields `__init__`/`load_from_table` store on
`self` (source lines 69-132). -/
structure Scheme (α : Type) where
  raw : List (List α)
  version : ℕ
  b : List α
  b0_thr : α
  b0_idx : List ℕ
  b0_count : ℕ
  dwi_idx : List ℕ
  dwi_count : ℕ
  shells : List (Shell α)
  deriving Repr

/-- `load_from_table` (source lines 51-132) on a 2-D table: detect the format
from the column count, compute the per-row b-values, classify rows against
`b0_thr`, normalize the direction signs, and group the shells.  `none` models
the `ERROR` abort on an unrecognized column count. -/
def load_from_table (data : List (List α)) (b0_thr : α) : Option (Scheme α) :=
  match bvalsOf (ncols data) data with
  | none => none
  | some (version, b) =>
    let raw := data.map normalizeRow
    some { raw := raw
           version := version
           b := b
           b0_thr := b0_thr
           b0_idx := whereIdx (fun x => x ≤ b0_thr) b 0
           b0_count := (whereIdx (fun x => x ≤ b0_thr) b 0).length
           dwi_idx := whereIdx (fun x => b0_thr < x) b 0
           dwi_count := (whereIdx (fun x => b0_thr < x) b 0).length
           shells := shellsOf version b b0_thr raw }

/-- A 1-D input of length M is expanded to a single-row table
(source lines 67-68: `np.expand_dims(data, axis=0)`). -/
def load_vector (v : List α) (b0_thr : α) : Option (Scheme α) :=
  load_from_table [v] b0_thr

/-- The derived sample count `nS` (source lines 177-179). -/
def nS (s : Scheme α) : ℕ := s.b0_count + s.dwi_count

/-- `to_version_1` (source lines 160-175).  `sqrtF` stands for `np.sqrt`
(the array library is an external collaborator); real-valued instances use
`Real.sqrt`.  Constants: `gamma = 267.513e6`, `delta = 0.010`,
`Delta = 0.025`.  The implicit Python `return None` fallthrough on
version 0 is the final `none`. -/
def to_version_1 (sqrtF : α → α) (s : Scheme α) : Option (Scheme α) :=
  if s.version = 1 then some s
  else if s.version = 2 then
    let gamma : α := 267513000
    let delta : α := 1 / 100
    let Delta : α := 25 / 1000
    let gMax := s.b.map (fun v => sqrtF (v / (gamma * gamma * delta * delta * (Delta - delta / 3))))
    let dataBis := (s.raw.zip gMax).map (fun rg =>
      rg.1.take 3 ++ [rg.2, Delta, delta, col rg.1 3])
    load_from_table dataBis 0
  else none

/-- Python's `round(x, nd)` on exact values: round to `nd` decimal places,
ties to the even last digit (banker's rounding). -/
def pyRound [FloorRing α] (nd : ℕ) (x : α) : α :=
  let y : α := x * (10 : α) ^ nd
  let n : ℤ := ⌊y⌋
  let r : ℤ :=
    if y - (n : α) < 1 / 2 then n
    else if 1 / 2 < y - (n : α) then n + 1
    else if n % 2 = 0 then n else n + 1
  (r : α) / (10 : α) ^ nd

/-- `write_Camino_wf` (source lines 134-142): one waveform line.  `fmt`
stands for Python's `str` on a float (decimal rendering is the platform's
float-repr, an external concern); integers print with `toString`. -/
def write_Camino_wf [FloorRing α] (fmt : α → String) (nb_steps : ℕ) (TE : α)
    (Gx Gy Gz : List α) : String :=
  let dt := TE / (nb_steps : α)
  toString nb_steps ++ " " ++ fmt dt ++ " " ++
    String.join ((List.range nb_steps).map (fun i =>
      fmt (pyRound 5 (Gx.getD i 0)) ++ " " ++
      fmt (pyRound 5 (Gy.getD i 0)) ++ " " ++
      fmt (pyRound 5 (Gz.getD i 0)) ++ " ")) ++ "\n"

/-- The `version == 2` branch of `write_Camino_schemefile`
(source lines 147-158): the GRADIENT_WAVEFORM text.  (The `version == 1`
branch delegates the whole file to `np.savetxt` and is outside this model.) -/
def write_Camino_schemefile_wf [FloorRing α] (fmt : α → String) (s : Scheme α) : String :=
  "VERSION: GRADIENT_WAVEFORM \n" ++
    String.join (s.raw.map (fun r =>
      let g1D := r.drop 4
      write_Camino_wf fmt g1D.length (col r 3)
        (g1D.map (fun v => col r 0 * v))
        (g1D.map (fun v => col r 1 * v))
        (g1D.map (fun v => col r 2 * v))))

/-- One output line as the claim words it: the sample count and
`dt = TE/sample_count`, then for each sample the waveform sample scaled by
the row's x, y and z direction components, each value rounded to 5 decimal
places and followed by a space, with a trailing space before the newline. -/
def camino_wf_line_claim [FloorRing α] (fmt : α → String) (r : List α) : String :=
  let g := r.drop 4
  let dt := col r 3 / (g.length : α)
  toString g.length ++ " " ++ fmt dt ++ " " ++
    String.join (g.map (fun v =>
      fmt (pyRound 5 (col r 0 * v)) ++ " " ++
      fmt (pyRound 5 (col r 1 * v)) ++ " " ++
      fmt (pyRound 5 (col r 2 * v)) ++ " ")) ++ "\n"

/-- The WAVEFORM serialization exactly as the claim states it: a header line
`VERSION: GRADIENT_WAVEFORM` (no trailing space), then one
`camino_wf_line_claim` per row. -/
def write_Camino_schemefile_wf_claim [FloorRing α] (fmt : α → String)
    (s : Scheme α) : String :=
  "VERSION: GRADIENT_WAVEFORM\n" ++ String.join (s.raw.map (camino_wf_line_claim fmt))

/-! ### Concrete test fixtures (used by witnesses and counterexamples) -/

/-- A one-row STEJSKAL_TANNER table: direction (1,0,0), `G = 1e-3`,
`Delta = 0.025`, `delta = 0.010`, `TE = 0.05`. -/
def Tst : List (List ℚ) := [[1, 0, 0, 1 / 1000, 25 / 1000, 1 / 100, 1 / 20]]

/-- A one-row WAVEFORM table (8 columns): direction (0,0,0) is irrelevant,
`TE = 4`, waveform `[1, 0, 0, 0]`. -/
def Twf : List (List ℚ) := [[0, 0, 0, 4, 1, 0, 0, 0]]

/-- A two-row WAVEFORM table used by the serialization witnesses. -/
def Twf2 : List (List ℚ) := [[1, 1, 1, 4, 1, 0, 0, 0]]

/-- The spec's end-to-end BVALUE example:
`[[1,0,0,1000],[0,1,0,0],[0,-1,0,0]]`. -/
def Tb0 : List (List ℚ) := [[1, 0, 0, 1000], [0, 1, 0, 0], [0, -1, 0, 0]]

/-- A WAVEFORM table with four rows: two rows share a descriptor, one row is
baseline (all-zero waveform), one row has a third descriptor.  Exercises
shell grouping and ordering. -/
def Tsh : List (List ℚ) := [[1, 0, 0, 4, 1, 0, 0, 0], [0, -1, 0, 4, 0, 0, 0, 0],
  [0, 1, 1, 4, 1, 0, 0, 0], [0, 0, 1, 4, 0, 1, 0, 0]]

/-- The real-valued counterpart of `Twf`, for the `to_version_1` claims. -/
def TwfR : List (List ℝ) := [[0, 0, 0, 4, 1, 0, 0, 0]]

/-- A one-row BVALUE table. -/
def Tbv : List (List ℚ) := [[1, 0, 0, 1000]]

/-! ### List access lemmas -/

lemma getD_of_lt {β : Type} (l : List β) (n : ℕ) (d : β) (h : n < l.length) :
    l.getD n d = l.get ⟨n, h⟩ := by
  rw [List.getD_eq_getElem?_getD, List.getElem?_eq_getElem h]; rfl

lemma col_drop (r : List α) (n k : ℕ) : col (r.drop n) k = col r (n + k) := by
  simp [col, List.getD_eq_getElem?_getD, List.getElem?_drop]

lemma getD_map_of_lt {β γ : Type} (l : List β) (f : β → γ) (i : ℕ) (d : β) (d' : γ)
    (h : i < l.length) : (l.map f).getD i d' = f (l.getD i d) := by
  rw [List.getD_eq_getElem?_getD, List.getElem?_map, List.getElem?_eq_getElem h,
    getD_of_lt _ _ _ h]
  rfl

lemma getD_take_of_lt {β : Type} (l : List β) (n i : ℕ) (d : β) (h : i < n) :
    (l.take n).getD i d = l.getD i d := by
  rw [List.getD_eq_getElem?_getD, List.getElem?_take, if_pos h, List.getD_eq_getElem?_getD]

/-! ### Normalization lemmas -/

lemma length_negRow3 (r : List α) : (negRow3 r).length = r.length := by
  simp [negRow3]; omega

lemma length_normalizeRow (r : List α) : (normalizeRow r).length = r.length := by
  unfold normalizeRow; split
  · exact length_negRow3 r
  · rfl

lemma negRow3_drop3 (r : List α) : (negRow3 r).drop 3 = r.drop 3 := by
  unfold negRow3
  rcases le_or_lt 3 r.length with h | h
  · exact List.drop_left' (by simp [Nat.min_eq_left h])
  · have h1 : r.drop 3 = [] := List.drop_eq_nil_of_le (by omega)
    have h2 : ((r.take 3).map (fun x => -x)).length ≤ 3 := by
      rw [List.length_map, List.length_take]; omega
    rw [h1, List.append_nil]
    exact List.drop_eq_nil_of_le h2

lemma normalizeRow_drop3 (r : List α) : (normalizeRow r).drop 3 = r.drop 3 := by
  unfold normalizeRow; split
  · exact negRow3_drop3 r
  · rfl

lemma col_normalizeRow_of_ge (r : List α) (k : ℕ) (hk : 3 ≤ k) :
    col (normalizeRow r) k = col r k := by
  have h1 : col (normalizeRow r) k = col ((normalizeRow r).drop 3) (k - 3) := by
    rw [col_drop]; congr 1; omega
  have h2 : col (r.drop 3) (k - 3) = col r k := by
    rw [col_drop]; congr 1; omega
  rw [h1, normalizeRow_drop3, h2]

lemma col_negRow3_of_lt (r : List α) (k : ℕ) (hk : k < 3) (hlen : k < r.length) :
    col (negRow3 r) k = -col r k := by
  unfold negRow3 col
  have hk' : k < ((r.take 3).map (fun x => -x)).length := by simp; omega
  rw [List.getD_eq_getElem?_getD, List.getElem?_append_left hk',
    ← List.getD_eq_getElem?_getD]
  rw [getD_map_of_lt _ _ _ 0 _ (by simp; omega), getD_take_of_lt _ _ _ _ hk]

lemma normalizeRow_col1_nonneg (r : List α) : 0 ≤ col (normalizeRow r) 1 := by
  unfold normalizeRow
  split
  · rename_i h
    have hlen : 1 < r.length := by
      by_contra hc
      rw [col, List.getD_eq_default _ _ (by omega)] at h
      exact absurd h (lt_irrefl 0)
    rw [col_negRow3_of_lt r 1 (by omega) hlen]
    linarith
  · rename_i h
    exact le_of_not_lt h

/-! ### whereIdx lemmas -/

lemma mem_whereIdx {β : Type} {p : β → Prop} [DecidablePred p] (l : List β) (k m : ℕ) :
    m ∈ whereIdx p l k ↔ ∃ j, ∃ h : j < l.length, m = k + j ∧ p (l.get ⟨j, h⟩) := by
  induction l generalizing k with
  | nil => simp [whereIdx]
  | cons x xs ih =>
    unfold whereIdx
    split
    · rename_i hx
      simp only [List.mem_cons, ih]
      constructor
      · rintro (rfl | ⟨j, hj, rfl, hp⟩)
        · exact ⟨0, by simp, by omega, by simpa using hx⟩
        · exact ⟨j + 1, by simpa using hj, by omega, by simpa using hp⟩
      · rintro ⟨j, hj, rfl, hp⟩
        cases j with
        | zero => left; omega
        | succ j' =>
          right
          exact ⟨j', by simpa using hj, by omega, by simpa using hp⟩
    · rename_i hx
      rw [ih]
      constructor
      · rintro ⟨j, hj, rfl, hp⟩
        exact ⟨j + 1, by simpa using hj, by omega, by simpa using hp⟩
      · rintro ⟨j, hj, rfl, hp⟩
        cases j with
        | zero => exact absurd (by simpa using hp) hx
        | succ j' =>
          exact ⟨j', by simpa using hj, by omega, by simpa using hp⟩

lemma le_of_mem_whereIdx {β : Type} {p : β → Prop} [DecidablePred p] (l : List β)
    (k m : ℕ) (h : m ∈ whereIdx p l k) : k ≤ m := by
  rw [mem_whereIdx] at h
  obtain ⟨j, _, rfl, _⟩ := h
  omega

lemma whereIdx_sorted {β : Type} {p : β → Prop} [DecidablePred p] (l : List β) (k : ℕ) :
    (whereIdx p l k).Pairwise (· < ·) := by
  induction l generalizing k with
  | nil => simp [whereIdx]
  | cons x xs ih =>
    unfold whereIdx
    split
    · rw [List.pairwise_cons]
      exact ⟨fun m hm => lt_of_lt_of_le (by omega) (le_of_mem_whereIdx _ _ _ hm), ih _⟩
    · exact ih _

lemma whereIdx_length_add {β : Type} {p q : β → Prop} [DecidablePred p] [DecidablePred q]
    (hpq : ∀ x, q x ↔ ¬ p x) (l : List β) (k : ℕ) :
    (whereIdx p l k).length + (whereIdx q l k).length = l.length := by
  induction l generalizing k with
  | nil => simp [whereIdx]
  | cons x xs ih =>
    unfold whereIdx
    by_cases hx : p x
    · rw [if_pos hx, if_neg ((hpq x).not.mpr (by simpa using hx))]
      simp only [List.length_cons]
      have := ih (k + 1)
      omega
    · rw [if_neg hx, if_pos ((hpq x).mpr hx)]
      simp only [List.length_cons]
      have := ih (k + 1)
      omega

/-! ### removeAll / firstUniques / firstIdx lemmas -/

lemma mem_removeAll {β : Type} [DecidableEq β] (a b : β) (l : List β) :
    b ∈ removeAll a l ↔ b ∈ l ∧ b ≠ a := by
  induction l with
  | nil => simp [removeAll]
  | cons x xs ih =>
    unfold removeAll
    split
    · rename_i hx
      subst hx
      rw [ih]
      constructor
      · rintro ⟨h1, h2⟩; exact ⟨List.mem_cons_of_mem _ h1, h2⟩
      · rintro ⟨h1, h2⟩
        rcases List.mem_cons.mp h1 with rfl | h1'
        · exact absurd rfl h2
        · exact ⟨h1', h2⟩
    · rename_i hx
      simp only [List.mem_cons, ih]
      constructor
      · rintro (rfl | ⟨h1, h2⟩)
        · exact ⟨Or.inl rfl, hx⟩
        · exact ⟨Or.inr h1, h2⟩
      · rintro ⟨rfl | h1, h2⟩
        · exact Or.inl rfl
        · exact Or.inr ⟨h1, h2⟩

lemma removeAll_sublist {β : Type} [DecidableEq β] (a : β) (l : List β) :
    List.Sublist (removeAll a l) l := by
  induction l with
  | nil => simp [removeAll]
  | cons x xs ih =>
    unfold removeAll
    split
    · exact List.Sublist.cons x ih
    · exact List.Sublist.cons₂ x ih

lemma mem_firstUniques {β : Type} [DecidableEq β] (a : β) (l : List β) :
    a ∈ firstUniques l ↔ a ∈ l := by
  induction l with
  | nil => simp [firstUniques]
  | cons x xs ih =>
    unfold firstUniques
    by_cases hax : a = x
    · subst hax; simp
    · simp only [List.mem_cons, mem_removeAll, ih]
      constructor
      · rintro (rfl | ⟨h1, _⟩)
        · exact Or.inl rfl
        · exact Or.inr h1
      · rintro (rfl | h1)
        · exact Or.inl rfl
        · exact Or.inr ⟨h1, hax⟩

lemma firstIdx_cons {β : Type} [DecidableEq β] (a x : β) (xs : List β) :
    firstIdx a (x :: xs) = if x = a then 0 else firstIdx a xs + 1 := rfl

lemma firstIdx_lt_length {β : Type} [DecidableEq β] (a : β) (l : List β) (h : a ∈ l) :
    firstIdx a l < l.length := by
  induction l with
  | nil => simp at h
  | cons x xs ih =>
    rw [firstIdx_cons]
    split
    · simp
    · rename_i hx
      rcases List.mem_cons.mp h with rfl | h'
      · exact absurd rfl hx
      · simpa using ih h'

lemma getD_firstIdx {β : Type} [DecidableEq β] (a : β) (l : List β) (d : β) (h : a ∈ l) :
    l.getD (firstIdx a l) d = a := by
  induction l with
  | nil => simp at h
  | cons x xs ih =>
    rw [firstIdx_cons]
    split
    · rename_i hx; simpa using hx
    · rename_i hx
      rcases List.mem_cons.mp h with rfl | h'
      · exact absurd rfl hx
      · simpa using ih h'

lemma firstIdx_min {β : Type} [DecidableEq β] (a : β) (l : List β) (j : ℕ) (d : β)
    (hj : j < l.length) (hlt : j < firstIdx a l) : l.getD j d ≠ a := by
  induction l generalizing j with
  | nil => simp at hj
  | cons x xs ih =>
    rw [firstIdx_cons] at hlt
    by_cases hx : x = a
    · rw [if_pos hx] at hlt; omega
    · rw [if_neg hx] at hlt
      cases j with
      | zero => simpa using hx
      | succ j' =>
        have := ih j' (by simpa using hj) (by omega)
        simpa using this

lemma firstUniques_pairwise {β : Type} [DecidableEq β] (l : List β) :
    (firstUniques l).Pairwise (fun a b => firstIdx a l < firstIdx b l) := by
  induction l with
  | nil => simp [firstUniques]
  | cons x xs ih =>
    unfold firstUniques
    rw [List.pairwise_cons]
    constructor
    · intro b hb
      have hbx : b ≠ x := ((mem_removeAll x b _).mp hb).2
      rw [firstIdx_cons, if_pos rfl, firstIdx_cons, if_neg (fun h => hbx h.symm)]
      omega
    · have h1 : (removeAll x (firstUniques xs)).Pairwise
          (fun a b => firstIdx a xs < firstIdx b xs) :=
        ih.sublist (removeAll_sublist x _)
      refine h1.imp_of_mem ?_
      intro a b ha hb hab
      have hax : a ≠ x := ((mem_removeAll x a _).mp ha).2
      have hbx : b ≠ x := ((mem_removeAll x b _).mp hb).2
      rw [firstIdx_cons, if_neg (fun h => hax h.symm),
        firstIdx_cons, if_neg (fun h => hbx h.symm)]
      omega

lemma firstUniques_nodup {β : Type} [DecidableEq β] (l : List β) :
    (firstUniques l).Nodup := by
  refine (firstUniques_pairwise l).imp ?_
  intro a b hab
  intro h
  subst h
  exact absurd hab (lt_irrefl _)

/-- The head of the occurrence list of `u` is the first occurrence of `u`. -/
lemma whereIdx_eq_headD {β : Type} [DecidableEq β] (l : List β) (u : β) (k : ℕ)
    (h : u ∈ l) : (whereIdx (fun r => r = u) l k).headD 0 = k + firstIdx u l := by
  induction l generalizing k with
  | nil => simp at h
  | cons x xs ih =>
    unfold whereIdx
    rw [firstIdx_cons]
    by_cases hx : x = u
    · rw [if_pos hx, if_pos hx]; simp
    · rw [if_neg hx, if_neg hx]
      rcases List.mem_cons.mp h with rfl | h'
      · exact absurd rfl hx
      · rw [ih _ h']; omega

lemma whereIdx_eq_ne_nil {β : Type} [DecidableEq β] (l : List β) (u : β) (k : ℕ)
    (h : u ∈ l) : whereIdx (fun r => r = u) l k ≠ [] := by
  induction l generalizing k with
  | nil => simp at h
  | cons x xs ih =>
    unfold whereIdx
    by_cases hx : x = u
    · rw [if_pos hx]; simp
    · rw [if_neg hx]
      rcases List.mem_cons.mp h with rfl | h'
      · exact absurd rfl hx
      · exact ih _ h'

/-! ### load_from_table structure lemmas -/

lemma bvalsOf_four (data : List (List α)) : bvalsOf 4 data =
    some (0, data.map (fun r => col r 3)) := rfl

lemma bvalsOf_seven (data : List (List α)) : bvalsOf 7 data = some (1, data.map bST) := rfl

lemma bvalsOf_wf (M : ℕ) (data : List (List α)) (h : 7 < M) : bvalsOf M data =
    some (2, data.map (fun r => compute1D_b (r.drop 4) (col r 3) "usual")) := by
  unfold bvalsOf
  rw [if_neg (by omega), if_neg (by omega), if_pos h]

lemma bvalsOf_none (M : ℕ) (data : List (List α)) (h4 : M ≠ 4) (h7 : M ≠ 7)
    (hle : M ≤ 7) : bvalsOf M data = none := by
  unfold bvalsOf
  rw [if_neg h4, if_neg h7, if_neg (by omega)]

lemma load_spec {data : List (List α)} {thr : α} {s : Scheme α}
    (h : load_from_table data thr = some s) :
    bvalsOf (ncols data) data = some (s.version, s.b) ∧
    s.raw = data.map normalizeRow ∧
    s.b0_thr = thr ∧
    s.b0_idx = whereIdx (fun x => x ≤ thr) s.b 0 ∧
    s.b0_count = s.b0_idx.length ∧
    s.dwi_idx = whereIdx (fun x => thr < x) s.b 0 ∧
    s.dwi_count = s.dwi_idx.length ∧
    s.shells = shellsOf s.version s.b thr s.raw := by
  unfold load_from_table at h
  cases hb : bvalsOf (ncols data) data with
  | none => rw [hb] at h; exact absurd h (by simp)
  | some vb =>
    obtain ⟨v, b⟩ := vb
    rw [hb] at h
    simp only [Option.some.injEq] at h
    subst h
    exact ⟨rfl, rfl, rfl, rfl, rfl, rfl, rfl, rfl⟩

lemma load_version_four {data : List (List α)} {thr : α} {s : Scheme α}
    (h : load_from_table data thr = some s) (hM : ncols data = 4) :
    s.version = 0 ∧ s.b = data.map (fun r => col r 3) := by
  have h1 := (load_spec h).1
  rw [hM, bvalsOf_four] at h1
  simp only [Option.some.injEq, Prod.mk.injEq] at h1
  exact ⟨h1.1.symm, h1.2.symm⟩

lemma load_version_seven {data : List (List α)} {thr : α} {s : Scheme α}
    (h : load_from_table data thr = some s) (hM : ncols data = 7) :
    s.version = 1 ∧ s.b = data.map bST := by
  have h1 := (load_spec h).1
  rw [hM, bvalsOf_seven] at h1
  simp only [Option.some.injEq, Prod.mk.injEq] at h1
  exact ⟨h1.1.symm, h1.2.symm⟩

lemma load_version_wf {data : List (List α)} {thr : α} {s : Scheme α}
    (h : load_from_table data thr = some s) (hM : 7 < ncols data) :
    s.version = 2 ∧
      s.b = data.map (fun r => compute1D_b (r.drop 4) (col r 3) "usual") := by
  have h1 := (load_spec h).1
  rw [bvalsOf_wf _ _ hM] at h1
  simp only [Option.some.injEq, Prod.mk.injEq] at h1
  exact ⟨h1.1.symm, h1.2.symm⟩

lemma load_isSome_of_recognized (data : List (List α)) (thr : α)
    (h : ncols data = 4 ∨ ncols data = 7 ∨ 7 < ncols data) :
    ∃ s, load_from_table data thr = some s := by
  unfold load_from_table
  have : ∃ vb, bvalsOf (ncols data) data = some vb := by
    rcases h with h | h | h
    · exact ⟨_, by rw [h, bvalsOf_four]⟩
    · exact ⟨_, by rw [h, bvalsOf_seven]⟩
    · exact ⟨_, bvalsOf_wf _ _ h⟩
  obtain ⟨⟨v, b⟩, hvb⟩ := this
  rw [hvb]
  exact ⟨_, rfl⟩

lemma load_none_of_unrecognized (data : List (List α)) (thr : α)
    (h4 : ncols data ≠ 4) (h7 : ncols data ≠ 7) (hle : ncols data ≤ 7) :
    load_from_table data thr = none := by
  unfold load_from_table
  rw [bvalsOf_none _ _ h4 h7 hle]

/-- The descriptor matrix `tmp = raw[:,3:]` of the normalized table equals
the descriptor matrix of the input: sign normalization only touches
columns 0-2. -/
lemma tmp_eq (data : List (List α)) :
    (data.map normalizeRow).map (List.drop 3) = data.map (List.drop 3) := by
  rw [List.map_map]
  exact List.map_congr_left (fun r _ => normalizeRow_drop3 r)

/-- Rows with equal descriptors (columns 3..end) get equal b-values: every
branch of the b-value computation reads only columns `3..`. -/
lemma b_eq_of_descriptor_eq {M : ℕ} (v : ℕ) (b : List α) (data : List (List α))
    (hvb : bvalsOf M data = some (v, b)) (r r' : List α)
    (hr : r ∈ data) (hr' : r' ∈ data) (hd : r.drop 3 = r'.drop 3) :
    ∃ f : List α → α, b = data.map f ∧ f r = f r' := by
  unfold bvalsOf at hvb
  have colEq : ∀ k, 3 ≤ k → col r k = col r' k := by
    intro k hk
    have e1 : col r k = col (r.drop 3) (k - 3) := by rw [col_drop]; congr 1; omega
    have e2 : col r' k = col (r'.drop 3) (k - 3) := by rw [col_drop]; congr 1; omega
    rw [e1, e2, hd]
  split at hvb
  · simp only [Option.some.injEq, Prod.mk.injEq] at hvb
    exact ⟨_, hvb.2.symm, colEq 3 (by omega)⟩
  · split at hvb
    · simp only [Option.some.injEq, Prod.mk.injEq] at hvb
      refine ⟨bST, hvb.2.symm, ?_⟩
      unfold bST
      rw [colEq 3 (by omega), colEq 4 (by omega), colEq 5 (by omega)]
    · split at hvb
      · simp only [Option.some.injEq, Prod.mk.injEq] at hvb
        refine ⟨_, hvb.2.symm, ?_⟩
        have hdrop : r.drop 4 = r'.drop 4 := by
          have e1 : r.drop 4 = (r.drop 3).drop 1 := by rw [List.drop_drop]
          have e2 : r'.drop 4 = (r'.drop 3).drop 1 := by rw [List.drop_drop]
          rw [e1, e2, hd]
        show compute1D_b (r.drop 4) (col r 3) "usual"
          = compute1D_b (r'.drop 4) (col r' 3) "usual"
        rw [hdrop, colEq 3 (by omega)]
      · exact absurd hvb (by simp)

/-- What it takes for the loop body to emit a shell. -/
lemma shellOfUnique_eq_some (v : ℕ) (b : List α) (thr : α) (raw : List (List α))
    (u : List α) (sh : Shell α) :
    shellOfUnique v b thr raw u = some sh ↔
      ¬ b.getD (firstIdx u (raw.map (List.drop 3))) 0 ≤ thr ∧
      sh = mkShell v (b.getD (firstIdx u (raw.map (List.drop 3))) 0) u
        (raw.map (List.drop 3)) raw := by
  constructor
  · intro hsome
    have hsome' : (if b.getD (firstIdx u (raw.map (List.drop 3))) 0 ≤ thr then none
        else some (mkShell v (b.getD (firstIdx u (raw.map (List.drop 3))) 0) u
          (raw.map (List.drop 3)) raw)) = some sh := hsome
    split at hsome'
    · exact absurd hsome' (by simp)
    · rename_i hbu
      simp only [Option.some.injEq] at hsome'
      exact ⟨hbu, hsome'.symm⟩
  · rintro ⟨hbu, rfl⟩
    show (if b.getD (firstIdx u (raw.map (List.drop 3))) 0 ≤ thr then none
        else some (mkShell v (b.getD (firstIdx u (raw.map (List.drop 3))) 0) u
          (raw.map (List.drop 3)) raw)) = _
    rw [if_neg hbu]

/-- Membership in the shell list. -/
lemma mem_shellsOf (v : ℕ) (b : List α) (thr : α) (raw : List (List α)) (sh : Shell α) :
    sh ∈ shellsOf v b thr raw ↔
      ∃ u ∈ firstUniques (raw.map (List.drop 3)),
        ¬ b.getD (firstIdx u (raw.map (List.drop 3))) 0 ≤ thr ∧
        sh = mkShell v (b.getD (firstIdx u (raw.map (List.drop 3))) 0) u
          (raw.map (List.drop 3)) raw := by
  unfold shellsOf
  rw [List.mem_filterMap]
  constructor
  · rintro ⟨u, hu, hsome⟩
    rw [shellOfUnique_eq_some] at hsome
    exact ⟨u, hu, hsome⟩
  · rintro ⟨u, hu, hbu, rfl⟩
    exact ⟨u, hu, (shellOfUnique_eq_some _ _ _ _ _ _).mpr ⟨hbu, rfl⟩⟩

lemma ncols_rect {data : List (List α)} {M : ℕ} (hne : data ≠ [])
    (hrect : ∀ r ∈ data, r.length = M) : ncols data = M := by
  cases data with
  | nil => exact absurd rfl hne
  | cons r rest => exact hrect r (List.mem_cons_self r rest)

lemma load_ne_nil {data : List (List α)} {thr : α} {s : Scheme α}
    (h : load_from_table data thr = some s) : data ≠ [] := by
  intro hd
  subst hd
  rw [load_none_of_unrecognized _ _ (by simp [ncols]) (by simp [ncols])
    (by simp [ncols])] at h
  exact absurd h (by simp)

lemma load_b_length {data : List (List α)} {thr : α} {s : Scheme α}
    (h : load_from_table data thr = some s) : s.b.length = data.length := by
  have h1 := (load_spec h).1
  unfold bvalsOf at h1
  split at h1
  · simp only [Option.some.injEq, Prod.mk.injEq] at h1
    rw [← h1.2]; simp
  · split at h1
    · simp only [Option.some.injEq, Prod.mk.injEq] at h1
      rw [← h1.2]; simp
    · split at h1
      · simp only [Option.some.injEq, Prod.mk.injEq] at h1
        rw [← h1.2]; simp
      · exact absurd h1 (by simp)

lemma load_raw_length {data : List (List α)} {thr : α} {s : Scheme α}
    (h : load_from_table data thr = some s) : s.raw.length = data.length := by
  rw [(load_spec h).2.1]
  simp

/-! ### Claim theorems -/

/-- C7: construction determines the format solely from the column count M:
M = 4 gives BVALUE (version 0), M = 7 gives STEJSKAL_TANNER (version 1),
M > 7 gives WAVEFORM (version 2), and any other M fails producing no scheme
object; a 1-D input of length M is treated as a single-row table with
N = 1. -/
theorem format_detection (data : List (List ℚ)) (v : List ℚ) (thr : ℚ) :
    ((load_from_table data thr).map Scheme.version =
      if ncols data = 4 then some 0
      else if ncols data = 7 then some 1
      else if 7 < ncols data then some 2
      else none) ∧
    (load_from_table data thr = none ↔
      ncols data ≠ 4 ∧ ncols data ≠ 7 ∧ ncols data ≤ 7) ∧
    load_vector v thr = load_from_table [v] thr ∧
    (load_vector v thr).map (fun s => s.raw.length) =
      (load_vector v thr).map (fun _ => 1) := by
  refine ⟨?_, ⟨?_, ?_⟩, rfl, ?_⟩
  · by_cases h4 : ncols data = 4
    · rw [if_pos h4]
      obtain ⟨s, hs⟩ := load_isSome_of_recognized data thr (Or.inl h4)
      rw [hs, Option.map_some', (load_version_four hs h4).1]
    · rw [if_neg h4]
      by_cases h7 : ncols data = 7
      · rw [if_pos h7]
        obtain ⟨s, hs⟩ := load_isSome_of_recognized data thr (Or.inr (Or.inl h7))
        rw [hs, Option.map_some', (load_version_seven hs h7).1]
      · rw [if_neg h7]
        by_cases hgt : 7 < ncols data
        · rw [if_pos hgt]
          obtain ⟨s, hs⟩ := load_isSome_of_recognized data thr (Or.inr (Or.inr hgt))
          rw [hs, Option.map_some', (load_version_wf hs hgt).1]
        · rw [if_neg hgt]
          rw [load_none_of_unrecognized _ _ h4 h7 (by omega), Option.map_none']
  · intro hnone
    refine ⟨?_, ?_, ?_⟩ <;> by_contra hc
    · obtain ⟨s, hs⟩ := load_isSome_of_recognized data thr (Or.inl hc)
      rw [hs] at hnone; exact absurd hnone (by simp)
    · obtain ⟨s, hs⟩ := load_isSome_of_recognized data thr (Or.inr (Or.inl hc))
      rw [hs] at hnone; exact absurd hnone (by simp)
    · obtain ⟨s, hs⟩ := load_isSome_of_recognized data thr (Or.inr (Or.inr (by omega)))
      rw [hs] at hnone; exact absurd hnone (by simp)
  · rintro ⟨h4, h7, hle⟩
    exact load_none_of_unrecognized _ _ h4 h7 hle
  · cases hl : load_vector v thr with
    | none => rfl
    | some s =>
      rw [Option.map_some', Option.map_some']
      have : s.raw.length = [v].length := load_raw_length hl
      simp only [List.length_singleton] at this
      rw [this]

/-- C2: for every table with exactly 7 columns, the b-value of each row is
`(gamma*G*delta)^2 * (Delta - delta/3) * 1e-6` with `gamma = 267.513e6`,
`G` column 3, `Delta` column 4 and `delta` column 5 of that row. -/
theorem stejskal_tanner_b_formula (data : List (List ℚ)) (thr : ℚ) (s : Scheme ℚ)
    (hrect : ∀ r ∈ data, r.length = 7)
    (hload : load_from_table data thr = some s) :
    ∀ i < s.raw.length,
      s.b.getD i 0 =
        (267513000 * col (data.getD i []) 3 * col (data.getD i []) 5) ^ 2 *
          (col (data.getD i []) 4 - col (data.getD i []) 5 / 3) * (1 / 1000000) := by
  intro i hi
  have hM : ncols data = 7 := ncols_rect (load_ne_nil hload) hrect
  have hb := (load_version_seven hload hM).2
  have hlen : i < data.length := by rw [← load_raw_length hload]; exact hi
  rw [hb, getD_map_of_lt data bST i [] 0 hlen]
  rfl

lemma Tst_isSome : (load_from_table Tst (0 : ℚ)).isSome := by decide

/-- Witness for C2 at the claim's concrete row `G=1e-3, Delta=0.025,
delta=0.010`: the b-value is exactly the literal
`(267.513e6*1e-3*0.010)^2*(0.025-0.010/3)*1e-6`, hence within the claimed
1e-6 relative tolerance of it. -/
theorem stejskal_tanner_b_formula_witness :
    (∀ r ∈ Tst, r.length = 7) ∧
    (∀ i < ((load_from_table Tst (0 : ℚ)).get Tst_isSome).raw.length,
      ((load_from_table Tst (0 : ℚ)).get Tst_isSome).b.getD i 0 =
        (267513000 * col (Tst.getD i []) 3 * col (Tst.getD i []) 5) ^ 2 *
          (col (Tst.getD i []) 4 - col (Tst.getD i []) 5 / 3) * (1 / 1000000)) ∧
    |((load_from_table Tst (0 : ℚ)).get Tst_isSome).b.getD 0 0 -
        (267513000 * (1 / 1000) * (1 / 100)) ^ 2 * (25 / 1000 - (1 / 100) / 3) *
          (1 / 1000000)| ≤
      (1 / 1000000) *
        ((267513000 * (1 / 1000) * (1 / 100)) ^ 2 * (25 / 1000 - (1 / 100) / 3) *
          (1 / 1000000)) := by
  refine ⟨by decide, stejskal_tanner_b_formula Tst 0 _ (by decide)
    (Option.some_get Tst_isSome).symm, ?_⟩
  have hb : ((load_from_table Tst (0 : ℚ)).get Tst_isSome).b.getD 0 0 =
      (267513000 * (1 / 1000) * (1 / 100)) ^ 2 * (25 / 1000 - (1 / 100) / 3) *
        (1 / 1000000) := by
    have h0 := stejskal_tanner_b_formula Tst 0 _ (by decide)
      (Option.some_get Tst_isSome).symm 0 (by
        rw [load_raw_length (Option.some_get Tst_isSome).symm]; decide)
    rw [h0]
    norm_num [Tst, col]
  rw [hb]
  norm_num

lemma mem_whereIdx_zero_getD {β : Type} {p : β → Prop} [DecidablePred p]
    (l : List β) (m : ℕ) (d : β) : m ∈ whereIdx p l 0 ↔ m < l.length ∧ p (l.getD m d) := by
  rw [mem_whereIdx]
  constructor
  · rintro ⟨j, hj, hm, hp⟩
    have : m = j := by omega
    subst this
    exact ⟨hj, by rwa [getD_of_lt _ _ _ hj]⟩
  · rintro ⟨hm, hp⟩
    exact ⟨m, hm, by omega, by rwa [getD_of_lt _ _ _ hm] at hp⟩

/-- C3: for every table with M >= 8 columns, each row's b-value comes from
its waveform (columns 4..end, length M-4) and TE (column 3) by
`dt = TE/L`, `q = cumsum(g)*dt*gamma2` with `gamma2 = 2.6751987e8`,
`b_SI = (sum of squares of q)*dt`; the returned value is `b_SI/1e6` for
unit 'usual' (the default), `b_SI` for 'SI' and also `b_SI` for any other
unit; a standalone evaluation defaults to `TE = 0.100` while a table row
always uses its own TE column. -/
theorem waveform_b_formula (data : List (List ℚ)) (M : ℕ) (thr : ℚ) (s : Scheme ℚ)
    (hrect : ∀ r ∈ data, r.length = M) (hM : 8 ≤ M)
    (hload : load_from_table data thr = some s) :
    (∀ i < s.raw.length,
      ((data.getD i []).drop 4).length = M - 4 ∧
      s.b.getD i 0 =
        compute1D_b ((data.getD i []).drop 4) (col (data.getD i []) 3) "usual") ∧
    (∀ (g : List ℚ) (TE : ℚ),
      compute1D_b g TE "SI" =
        (((cumsum g 0).map (fun c => c * (TE / g.length) * 267519870)).map
          (fun x => x * x)).sum * (TE / g.length) ∧
      compute1D_b g TE "usual" = compute1D_b g TE "SI" / 1000000 ∧
      ∀ u : String, u ≠ "usual" → compute1D_b g TE u = compute1D_b g TE "SI") ∧
    (∀ g : List ℚ, compute1D_b_std g = compute1D_b g (1 / 10) "usual") := by
  have hcols : 7 < ncols data := by rw [ncols_rect (load_ne_nil hload) hrect]; omega
  have hb := (load_version_wf hload hcols).2
  refine ⟨?_, ?_, fun g => rfl⟩
  · intro i hi
    have hlen : i < data.length := by rw [← load_raw_length hload]; exact hi
    constructor
    · have hmem : data.getD i [] ∈ data := by
        rw [getD_of_lt _ _ _ hlen]
        exact List.get_mem data _ _
      rw [List.length_drop, hrect _ hmem]
    · rw [hb, getD_map_of_lt data _ i [] 0 hlen]
  · intro g TE
    refine ⟨by simp [compute1D_b], by simp [compute1D_b], ?_⟩
    intro u hu
    simp only [compute1D_b, if_neg hu]
    split <;> simp

lemma Twf_isSome : (load_from_table Twf (0 : ℚ)).isSome := by decide

/-- Witness for C3 on the concrete 8-column table `Twf`: the general theorem
applies, and the single row's b-value evaluates to
`4 * 267519870^2 / 1e6`. -/
theorem waveform_b_formula_witness :
    ((∀ i < ((load_from_table Twf (0 : ℚ)).get Twf_isSome).raw.length,
      ((Twf.getD i []).drop 4).length = 8 - 4 ∧
      ((load_from_table Twf (0 : ℚ)).get Twf_isSome).b.getD i 0 =
        compute1D_b ((Twf.getD i []).drop 4) (col (Twf.getD i []) 3) "usual") ∧
    (∀ (g : List ℚ) (TE : ℚ),
      compute1D_b g TE "SI" =
        (((cumsum g 0).map (fun c => c * (TE / g.length) * 267519870)).map
          (fun x => x * x)).sum * (TE / g.length) ∧
      compute1D_b g TE "usual" = compute1D_b g TE "SI" / 1000000 ∧
      ∀ u : String, u ≠ "usual" → compute1D_b g TE u = compute1D_b g TE "SI") ∧
    (∀ g : List ℚ, compute1D_b_std g = compute1D_b g (1 / 10) "usual")) ∧
    ((load_from_table Twf (0 : ℚ)).get Twf_isSome).b.getD 0 0 =
      4 * 267519870 ^ 2 / 1000000 := by
  refine ⟨waveform_b_formula Twf 8 0 _ (by decide) (by decide)
    (Option.some_get Twf_isSome).symm, ?_⟩
  have h1 : (load_from_table Twf (0 : ℚ)).map Scheme.b =
      some [4 * 267519870 ^ 2 / 1000000] := by
    norm_num [Twf, load_from_table, bvalsOf, ncols, compute1D_b, cumsum, col]
  rw [← Option.some_get Twf_isSome, Option.map_some', Option.some.injEq] at h1
  rw [h1]
  rfl

/-- C8: during construction, every row whose column 1 (Y) is negative has
columns 0-2 negated in place, every row with Y >= 0 is untouched, no other
column changes, and every stored row ends with a non-negative Y. -/
theorem direction_sign_normalization (data : List (List ℚ)) (thr : ℚ) (s : Scheme ℚ)
    (hload : load_from_table data thr = some s) :
    ∀ i < s.raw.length,
      (col (data.getD i []) 1 < 0 → s.raw.getD i [] = negRow3 (data.getD i [])) ∧
      (0 ≤ col (data.getD i []) 1 → s.raw.getD i [] = data.getD i []) ∧
      (s.raw.getD i []).drop 3 = (data.getD i []).drop 3 ∧
      0 ≤ col (s.raw.getD i []) 1 := by
  intro i hi
  have hraw := (load_spec hload).2.1
  have hlen : i < data.length := by rw [← load_raw_length hload]; exact hi
  have hrow : s.raw.getD i [] = normalizeRow (data.getD i []) := by
    rw [hraw, getD_map_of_lt data _ i [] [] hlen]
  refine ⟨?_, ?_, ?_, ?_⟩
  · intro hneg
    rw [hrow]
    unfold normalizeRow
    rw [if_pos hneg]
  · intro hpos
    rw [hrow]
    unfold normalizeRow
    rw [if_neg (not_lt.mpr hpos)]
  · rw [hrow, normalizeRow_drop3]
  · rw [hrow]
    exact normalizeRow_col1_nonneg _

lemma Tb0_isSome : (load_from_table Tb0 (0 : ℚ)).isSome := by decide

/-- Witness for C8 on the spec's end-to-end example `Tb0`: row 2 has
`Y = -1 < 0` and is stored negated, and the stored table is exactly
`[[1,0,0,1000],[0,1,0,0],[0,1,0,0]]`. -/
theorem direction_sign_normalization_witness :
    (∀ i < ((load_from_table Tb0 (0 : ℚ)).get Tb0_isSome).raw.length,
      (col (Tb0.getD i []) 1 < 0 →
        ((load_from_table Tb0 (0 : ℚ)).get Tb0_isSome).raw.getD i [] =
          negRow3 (Tb0.getD i [])) ∧
      (0 ≤ col (Tb0.getD i []) 1 →
        ((load_from_table Tb0 (0 : ℚ)).get Tb0_isSome).raw.getD i [] = Tb0.getD i []) ∧
      (((load_from_table Tb0 (0 : ℚ)).get Tb0_isSome).raw.getD i []).drop 3 =
        (Tb0.getD i []).drop 3 ∧
      0 ≤ col (((load_from_table Tb0 (0 : ℚ)).get Tb0_isSome).raw.getD i []) 1) ∧
    ((load_from_table Tb0 (0 : ℚ)).get Tb0_isSome).raw =
      [[1, 0, 0, 1000], [0, 1, 0, 0], [0, 1, 0, 0]] := by
  refine ⟨direction_sign_normalization Tb0 0 _ (Option.some_get Tb0_isSome).symm, ?_⟩
  have h1 : (load_from_table Tb0 (0 : ℚ)).map Scheme.raw =
      some [[1, 0, 0, 1000], [0, 1, 0, 0], [0, 1, 0, 0]] := by
    norm_num [Tb0, load_from_table, bvalsOf, ncols, normalizeRow, negRow3, col]
  rw [← Option.some_get Tb0_isSome, Option.map_some', Option.some.injEq] at h1
  exact h1

/-- C6: the baseline index set is `{i : b[i] <= b0_thr}`, the weighted index
set is `{i : b[i] > b0_thr}`, the two are disjoint and exhaustive over
`[0,N)`, and `|baseline| + |weighted| = N = nS`. -/
theorem baseline_weighted_partition (data : List (List ℚ)) (thr : ℚ) (s : Scheme ℚ)
    (hload : load_from_table data thr = some s) :
    s.b.length = s.raw.length ∧
    (∀ i, i ∈ s.b0_idx ↔ i < s.raw.length ∧ s.b.getD i 0 ≤ thr) ∧
    (∀ i, i ∈ s.dwi_idx ↔ i < s.raw.length ∧ thr < s.b.getD i 0) ∧
    (∀ i, ¬(i ∈ s.b0_idx ∧ i ∈ s.dwi_idx)) ∧
    (∀ i < s.raw.length, i ∈ s.b0_idx ∨ i ∈ s.dwi_idx) ∧
    s.b0_count + s.dwi_count = s.raw.length ∧
    nS s = s.raw.length := by
  obtain ⟨-, hraw, -, hb0, hb0c, hdwi, hdwic, -⟩ := load_spec hload
  have hblen : s.b.length = s.raw.length := by
    rw [load_b_length hload, load_raw_length hload]
  have hmem0 : ∀ i, i ∈ s.b0_idx ↔ i < s.raw.length ∧ s.b.getD i 0 ≤ thr := by
    intro i
    rw [hb0, mem_whereIdx_zero_getD s.b i 0, hblen]
  have hmemw : ∀ i, i ∈ s.dwi_idx ↔ i < s.raw.length ∧ thr < s.b.getD i 0 := by
    intro i
    rw [hdwi, mem_whereIdx_zero_getD s.b i 0, hblen]
  refine ⟨hblen, hmem0, hmemw, ?_, ?_, ?_, ?_⟩
  · rintro i ⟨h1, h2⟩
    rw [hmem0 i] at h1
    rw [hmemw i] at h2
    exact absurd h2.2 (not_lt.mpr h1.2)
  · intro i hi
    rcases le_or_lt (s.b.getD i 0) thr with h | h
    · exact Or.inl ((hmem0 i).mpr ⟨hi, h⟩)
    · exact Or.inr ((hmemw i).mpr ⟨hi, h⟩)
  · rw [hb0c, hdwic, hb0, hdwi,
      whereIdx_length_add (fun x => lt_iff_not_le) s.b 0, hblen]
  · show s.b0_count + s.dwi_count = s.raw.length
    rw [hb0c, hdwic, hb0, hdwi,
      whereIdx_length_add (fun x => lt_iff_not_le) s.b 0, hblen]

/-- Witness for C6 on the spec's end-to-end example `Tb0` with threshold 0:
the theorem applies, and concretely `b0_idx = [1, 2]`, `dwi_idx = [0]`. -/
theorem baseline_weighted_partition_witness :
    (((load_from_table Tb0 (0 : ℚ)).get Tb0_isSome).b.length =
        ((load_from_table Tb0 (0 : ℚ)).get Tb0_isSome).raw.length ∧
      (∀ i, i ∈ ((load_from_table Tb0 (0 : ℚ)).get Tb0_isSome).b0_idx ↔
        i < ((load_from_table Tb0 (0 : ℚ)).get Tb0_isSome).raw.length ∧
          ((load_from_table Tb0 (0 : ℚ)).get Tb0_isSome).b.getD i 0 ≤ 0) ∧
      (∀ i, i ∈ ((load_from_table Tb0 (0 : ℚ)).get Tb0_isSome).dwi_idx ↔
        i < ((load_from_table Tb0 (0 : ℚ)).get Tb0_isSome).raw.length ∧
          0 < ((load_from_table Tb0 (0 : ℚ)).get Tb0_isSome).b.getD i 0) ∧
      (∀ i, ¬(i ∈ ((load_from_table Tb0 (0 : ℚ)).get Tb0_isSome).b0_idx ∧
        i ∈ ((load_from_table Tb0 (0 : ℚ)).get Tb0_isSome).dwi_idx)) ∧
      (∀ i < ((load_from_table Tb0 (0 : ℚ)).get Tb0_isSome).raw.length,
        i ∈ ((load_from_table Tb0 (0 : ℚ)).get Tb0_isSome).b0_idx ∨
        i ∈ ((load_from_table Tb0 (0 : ℚ)).get Tb0_isSome).dwi_idx) ∧
      ((load_from_table Tb0 (0 : ℚ)).get Tb0_isSome).b0_count +
        ((load_from_table Tb0 (0 : ℚ)).get Tb0_isSome).dwi_count =
        ((load_from_table Tb0 (0 : ℚ)).get Tb0_isSome).raw.length ∧
      nS ((load_from_table Tb0 (0 : ℚ)).get Tb0_isSome) =
        ((load_from_table Tb0 (0 : ℚ)).get Tb0_isSome).raw.length) ∧
    ((load_from_table Tb0 (0 : ℚ)).get Tb0_isSome).b0_idx = [1, 2] ∧
    ((load_from_table Tb0 (0 : ℚ)).get Tb0_isSome).dwi_idx = [0] := by
  refine ⟨baseline_weighted_partition Tb0 0 _ (Option.some_get Tb0_isSome).symm, ?_, ?_⟩
  · have h1 : (load_from_table Tb0 (0 : ℚ)).map Scheme.b0_idx = some [1, 2] := by
      norm_num [Tb0, load_from_table, bvalsOf, ncols, whereIdx, col]
    rw [← Option.some_get Tb0_isSome, Option.map_some', Option.some.injEq] at h1
    exact h1
  · have h1 : (load_from_table Tb0 (0 : ℚ)).map Scheme.dwi_idx = some [0] := by
      norm_num [Tb0, load_from_table, bvalsOf, ncols, whereIdx, col]
    rw [← Option.some_get Tb0_isSome, Option.map_some', Option.some.injEq] at h1
    exact h1

/-- C10: calling `to_version_1` on a BVALUE-format scheme (4 columns,
version 0) falls through every branch and returns no scheme (`None`),
raising no error; the embedding is purely functional and the source method
contains no assignment, so the source scheme is left unchanged. -/
theorem to_version_1_bvalue_none (data : List (List ℚ)) (thr : ℚ) (s : Scheme ℚ)
    (hload : load_from_table data thr = some s) (hM : ncols data = 4) :
    ∀ sqrtF : ℚ → ℚ, to_version_1 sqrtF s = none := by
  intro sqrtF
  have hv := (load_version_four hload hM).1
  unfold to_version_1
  rw [hv]
  norm_num

lemma Tbv_isSome : (load_from_table Tbv (0 : ℚ)).isSome := by decide

lemma mkShell_idx (v : ℕ) (bu : α) (u : List α) (tmp raw : List (List α)) :
    (mkShell v bu u tmp raw).idx = whereIdx (fun r => r = u) tmp 0 := rfl

lemma pairwise_filterMap {β γ : Type} {R : β → β → Prop} {S : γ → γ → Prop}
    (f : β → Option γ) (l : List β)
    (H : ∀ a ∈ l, ∀ b ∈ l, R a b → ∀ c, f a = some c → ∀ d, f b = some d → S c d)
    (hl : l.Pairwise R) : (l.filterMap f).Pairwise S := by
  induction l with
  | nil => simp
  | cons a l' ih =>
    rw [List.pairwise_cons] at hl
    rw [List.filterMap_cons]
    cases hfa : f a with
    | none =>
      exact ih (fun x hx y hy => H x (List.mem_cons_of_mem a hx) y
        (List.mem_cons_of_mem a hy)) hl.2
    | some c =>
      rw [List.pairwise_cons]
      constructor
      · intro d hd
        obtain ⟨b, hb, hfb⟩ := List.mem_filterMap.mp hd
        exact H a (List.mem_cons_self a l') b (List.mem_cons_of_mem a hb)
          (hl.1 b hb) c hfa d hfb
      · exact ih (fun x hx y hy => H x (List.mem_cons_of_mem a hx) y
          (List.mem_cons_of_mem a hy)) hl.2

/-- The descriptor of a shell emitted for `u` reads back `u`'s first
occurrence position as the head of its index list. -/
lemma shell_headD (v : ℕ) (b : List α) (thr : α) (raw : List (List α))
    (u : List α) (sh : Shell α) (hu : u ∈ raw.map (List.drop 3))
    (hsh : shellOfUnique v b thr raw u = some sh) :
    sh.idx.headD 0 = firstIdx u (raw.map (List.drop 3)) := by
  obtain ⟨-, rfl⟩ := (shellOfUnique_eq_some _ _ _ _ _ _).mp hsh
  rw [mkShell_idx, whereIdx_eq_headD _ _ _ hu]
  omega

/-- C5: the shell list is ordered by the first-occurrence index of each
distinct descriptor row (columns 3..end, exact value equality across the
whole row) scanning rows 0..N-1; each shell's index list is nonempty, its
head is the first occurrence of its descriptor, and it contains exactly the
rows whose descriptor equals that shell's descriptor. -/
theorem shells_first_occurrence_order (data : List (List ℚ)) (thr : ℚ) (s : Scheme ℚ)
    (hload : load_from_table data thr = some s) :
    (∀ sh ∈ s.shells, sh.idx ≠ [] ∧
      (∀ i, i ∈ sh.idx ↔ i < s.raw.length ∧
        (s.raw.map (List.drop 3)).getD i [] =
          (s.raw.map (List.drop 3)).getD (sh.idx.headD 0) []) ∧
      (∀ i ∈ sh.idx, sh.idx.headD 0 ≤ i)) ∧
    s.shells.Pairwise (fun sh1 sh2 => sh1.idx.headD 0 < sh2.idx.headD 0) := by
  have hsh := (load_spec hload).2.2.2.2.2.2.2
  have htl : (s.raw.map (List.drop 3)).length = s.raw.length := by
    rw [List.length_map]
  constructor
  · intro sh hmem
    rw [hsh] at hmem
    obtain ⟨u, huFU, hbu, rfl⟩ := (mem_shellsOf _ _ _ _ _).mp hmem
    have hut : u ∈ s.raw.map (List.drop 3) := (mem_firstUniques _ _).mp huFU
    refine ⟨?_, ?_, ?_⟩
    · rw [mkShell_idx]
      exact whereIdx_eq_ne_nil _ _ _ hut
    · intro i
      rw [mkShell_idx, mem_whereIdx_zero_getD _ i ([] : List ℚ), htl,
        whereIdx_eq_headD _ _ _ hut, Nat.zero_add, getD_firstIdx u _ [] hut]
    · intro i hi
      rw [mkShell_idx] at hi
      rw [mem_whereIdx_zero_getD _ i ([] : List ℚ)] at hi
      rw [mkShell_idx, whereIdx_eq_headD _ _ _ hut, Nat.zero_add]
      by_contra hc
      push_neg at hc
      exact firstIdx_min u (s.raw.map (List.drop 3)) i [] hi.1 hc hi.2
  · rw [hsh]
    unfold shellsOf
    refine pairwise_filterMap _ _ ?_ (firstUniques_pairwise _)
    intro a ha b hb hab c hc d hd
    have hat : a ∈ s.raw.map (List.drop 3) := (mem_firstUniques _ _).mp ha
    have hbt : b ∈ s.raw.map (List.drop 3) := (mem_firstUniques _ _).mp hb
    rw [shell_headD _ _ _ _ _ _ hat hc, shell_headD _ _ _ _ _ _ hbt hd]
    exact hab

lemma Tsh_isSome : (load_from_table Tsh (0 : ℚ)).isSome := by decide

/-- Witness for C5 on the four-row table `Tsh`: the theorem applies, and the
shells' index lists are concretely `[[0, 2], [3]]` (first-occurrence order;
the baseline descriptor of row 1 forms no shell). -/
theorem shells_first_occurrence_order_witness :
    ((∀ sh ∈ ((load_from_table Tsh (0 : ℚ)).get Tsh_isSome).shells, sh.idx ≠ [] ∧
      (∀ i, i ∈ sh.idx ↔
        i < ((load_from_table Tsh (0 : ℚ)).get Tsh_isSome).raw.length ∧
        (((load_from_table Tsh (0 : ℚ)).get Tsh_isSome).raw.map
            (List.drop 3)).getD i [] =
          (((load_from_table Tsh (0 : ℚ)).get Tsh_isSome).raw.map
            (List.drop 3)).getD (sh.idx.headD 0) []) ∧
      (∀ i ∈ sh.idx, sh.idx.headD 0 ≤ i)) ∧
    ((load_from_table Tsh (0 : ℚ)).get Tsh_isSome).shells.Pairwise
      (fun sh1 sh2 => sh1.idx.headD 0 < sh2.idx.headD 0)) ∧
    ((load_from_table Tsh (0 : ℚ)).get Tsh_isSome).shells.map Shell.idx =
      [[0, 2], [3]] := by
  refine ⟨shells_first_occurrence_order Tsh 0 _ (Option.some_get Tsh_isSome).symm, ?_⟩
  have h1 : (load_from_table Tsh (0 : ℚ)).map (fun t => t.shells.map Shell.idx) =
      some [[0, 2], [3]] := by
    norm_num [Tsh, load_from_table, bvalsOf, ncols, compute1D_b, cumsum, col,
      normalizeRow, negRow3, shellsOf, shellOfUnique, mkShell, firstUniques,
      removeAll, firstIdx, whereIdx, List.filterMap_cons, List.getD]
  rw [← Option.some_get Tsh_isSome, Option.map_some', Option.some.injEq] at h1
  exact h1

/-- Witness for C10 on the concrete BVALUE table `Tbv`. -/
theorem to_version_1_bvalue_none_witness :
    to_version_1 id ((load_from_table Tbv (0 : ℚ)).get Tbv_isSome) = none :=
  to_version_1_bvalue_none Tbv 0 _ (Option.some_get Tbv_isSome).symm (by decide) id

/-- C4: for every successfully constructed scheme and non-negative threshold,
each weighted row index lies in exactly one shell's index list, no baseline
row index lies in any shell, and the union of the shells' index lists equals
the weighted index set. -/
theorem shells_partition_weighted (data : List (List ℚ)) (M : ℕ) (thr : ℚ)
    (s : Scheme ℚ) (hrect : ∀ r ∈ data, r.length = M) (hthr : 0 ≤ thr)
    (hload : load_from_table data thr = some s) :
    (∀ i ∈ s.dwi_idx, ∃ sh ∈ s.shells, i ∈ sh.idx ∧
      ∀ sh' ∈ s.shells, i ∈ sh'.idx → sh' = sh) ∧
    (∀ i ∈ s.b0_idx, ∀ sh ∈ s.shells, i ∉ sh.idx) ∧
    (∀ i, (∃ sh ∈ s.shells, i ∈ sh.idx) ↔ i ∈ s.dwi_idx) := by
  obtain ⟨hbx, hraw, -, hb0, -, hdwi, -, hsh⟩ := load_spec hload
  have hblen := load_b_length hload
  have htmp : s.raw.map (List.drop 3) = data.map (List.drop 3) := by
    rw [hraw]; exact tmp_eq data
  have hTlen : (s.raw.map (List.drop 3)).length = data.length := by
    rw [htmp]; simp
  have hTget : ∀ k, k < data.length →
      (s.raw.map (List.drop 3)).getD k [] = (data.getD k []).drop 3 := by
    intro k hk
    rw [htmp, getD_map_of_lt data _ k [] [] hk]
  have bkey : ∀ i j, i < data.length → j < data.length →
      (s.raw.map (List.drop 3)).getD i [] = (s.raw.map (List.drop 3)).getD j [] →
      s.b.getD i 0 = s.b.getD j 0 := by
    intro i j hi hj hij
    rw [hTget i hi, hTget j hj] at hij
    obtain ⟨f, hbf, hff⟩ := b_eq_of_descriptor_eq s.version s.b data hbx
      (data.getD i []) (data.getD j [])
      (by rw [getD_of_lt _ _ _ hi]; exact List.get_mem data _ _)
      (by rw [getD_of_lt _ _ _ hj]; exact List.get_mem data _ _) hij
    rw [hbf, getD_map_of_lt data f i [] 0 hi, getD_map_of_lt data f j [] 0 hj, hff]
  have hdwi_mem : ∀ i, i ∈ s.dwi_idx ↔ i < data.length ∧ thr < s.b.getD i 0 := by
    intro i
    rw [hdwi, mem_whereIdx_zero_getD s.b i 0, hblen]
  have hb0_mem : ∀ i, i ∈ s.b0_idx ↔ i < data.length ∧ s.b.getD i 0 ≤ thr := by
    intro i
    rw [hb0, mem_whereIdx_zero_getD s.b i 0, hblen]
  have hshell_elem : ∀ sh ∈ s.shells, ∀ i ∈ sh.idx,
      i < data.length ∧ thr < s.b.getD i 0 := by
    intro sh hmem i hi
    rw [hsh] at hmem
    obtain ⟨u, huFU, hbu, rfl⟩ := (mem_shellsOf _ _ _ _ _).mp hmem
    rw [mkShell_idx, mem_whereIdx_zero_getD _ i ([] : List ℚ), hTlen] at hi
    have hu_mem : u ∈ s.raw.map (List.drop 3) := (mem_firstUniques _ _).mp huFU
    have hfi_lt : firstIdx u (s.raw.map (List.drop 3)) < data.length := by
      rw [← hTlen]; exact firstIdx_lt_length u _ hu_mem
    have hfi_val : (s.raw.map (List.drop 3)).getD
        (firstIdx u (s.raw.map (List.drop 3))) [] = u := getD_firstIdx u _ [] hu_mem
    have := bkey _ _ hfi_lt hi.1 (by rw [hfi_val, hi.2])
    rw [this] at hbu
    exact ⟨hi.1, not_le.mp hbu⟩
  have hexists : ∀ i ∈ s.dwi_idx, ∃ sh ∈ s.shells, i ∈ sh.idx ∧
      ∀ sh' ∈ s.shells, i ∈ sh'.idx → sh' = sh := by
    intro i hi
    rw [hdwi_mem] at hi
    obtain ⟨hiN, hib⟩ := hi
    have hiT : i < (s.raw.map (List.drop 3)).length := by rw [hTlen]; exact hiN
    have hu_mem : (s.raw.map (List.drop 3)).getD i [] ∈ s.raw.map (List.drop 3) := by
      rw [getD_of_lt _ _ _ hiT]; exact List.get_mem _ _ _
    have huFU := (mem_firstUniques _ _).mpr hu_mem
    have hfi_lt : firstIdx ((s.raw.map (List.drop 3)).getD i [])
        (s.raw.map (List.drop 3)) < data.length := by
      rw [← hTlen]; exact firstIdx_lt_length _ _ hu_mem
    have hfi_val := getD_firstIdx ((s.raw.map (List.drop 3)).getD i [])
      (s.raw.map (List.drop 3)) [] hu_mem
    have hbu_eq : s.b.getD (firstIdx ((s.raw.map (List.drop 3)).getD i [])
        (s.raw.map (List.drop 3))) 0 = s.b.getD i 0 :=
      bkey _ _ hfi_lt hiN (by rw [hfi_val])
    have hbu_gt : ¬ s.b.getD (firstIdx ((s.raw.map (List.drop 3)).getD i [])
        (s.raw.map (List.drop 3))) 0 ≤ thr := by
      rw [hbu_eq]; exact not_le.mpr hib
    refine ⟨mkShell s.version (s.b.getD (firstIdx ((s.raw.map (List.drop 3)).getD i [])
      (s.raw.map (List.drop 3))) 0) ((s.raw.map (List.drop 3)).getD i [])
      (s.raw.map (List.drop 3)) s.raw, ?_, ?_, ?_⟩
    · rw [hsh]
      exact (mem_shellsOf _ _ _ _ _).mpr ⟨_, huFU, hbu_gt, rfl⟩
    · rw [mkShell_idx, mem_whereIdx_zero_getD _ i ([] : List ℚ)]
      exact ⟨hiT, rfl⟩
    · intro sh' hsh' hish'
      rw [hsh] at hsh'
      obtain ⟨u', hu'FU, hbu', rfl⟩ := (mem_shellsOf _ _ _ _ _).mp hsh'
      rw [mkShell_idx, mem_whereIdx_zero_getD _ i ([] : List ℚ)] at hish'
      rw [← hish'.2]
  refine ⟨hexists, ?_, ?_⟩
  · intro i hi0 sh hmem hi
    rw [hb0_mem] at hi0
    have := (hshell_elem sh hmem i hi).2
    exact absurd this (not_lt.mpr hi0.2)
  · intro i
    constructor
    · rintro ⟨sh, hmem, hi⟩
      rw [hdwi_mem]
      exact hshell_elem sh hmem i hi
    · intro hi
      obtain ⟨sh, hmem, hi', -⟩ := hexists i hi
      exact ⟨sh, hmem, hi'⟩

/-- Witness for C4 on the four-row table `Tsh` with threshold 0: the theorem
applies, and the weighted indices are concretely `[0, 2, 3]` while the
baseline index list is `[1]`. -/
theorem shells_partition_weighted_witness :
    ((∀ i ∈ ((load_from_table Tsh (0 : ℚ)).get Tsh_isSome).dwi_idx,
      ∃ sh ∈ ((load_from_table Tsh (0 : ℚ)).get Tsh_isSome).shells, i ∈ sh.idx ∧
        ∀ sh' ∈ ((load_from_table Tsh (0 : ℚ)).get Tsh_isSome).shells,
          i ∈ sh'.idx → sh' = sh) ∧
    (∀ i ∈ ((load_from_table Tsh (0 : ℚ)).get Tsh_isSome).b0_idx,
      ∀ sh ∈ ((load_from_table Tsh (0 : ℚ)).get Tsh_isSome).shells, i ∉ sh.idx) ∧
    (∀ i, (∃ sh ∈ ((load_from_table Tsh (0 : ℚ)).get Tsh_isSome).shells,
      i ∈ sh.idx) ↔ i ∈ ((load_from_table Tsh (0 : ℚ)).get Tsh_isSome).dwi_idx)) ∧
    ((load_from_table Tsh (0 : ℚ)).get Tsh_isSome).dwi_idx = [0, 2, 3] ∧
    ((load_from_table Tsh (0 : ℚ)).get Tsh_isSome).b0_idx = [1] := by
  refine ⟨shells_partition_weighted Tsh 8 0 _ (by decide) (le_refl 0)
    (Option.some_get Tsh_isSome).symm, ?_, ?_⟩
  · have h1 : (load_from_table Tsh (0 : ℚ)).map Scheme.dwi_idx = some [0, 2, 3] := by
      norm_num [Tsh, load_from_table, bvalsOf, ncols, compute1D_b, cumsum, col,
        whereIdx]
    rw [← Option.some_get Tsh_isSome, Option.map_some', Option.some.injEq] at h1
    exact h1
  · have h1 : (load_from_table Tsh (0 : ℚ)).map Scheme.b0_idx = some [1] := by
      norm_num [Tsh, load_from_table, bvalsOf, ncols, compute1D_b, cumsum, col,
        whereIdx]
    rw [← Option.some_get Tsh_isSome, Option.map_some', Option.some.injEq] at h1
    exact h1

/-! ### to_version_1 lemmas (C1, over the reals) -/

lemma compute1D_b_nonneg (g : List α) (TE : α) (hTE : 0 ≤ TE) :
    0 ≤ compute1D_b g TE "usual" := by
  unfold compute1D_b
  simp only [if_pos rfl]
  have hdt : (0 : α) ≤ TE / (g.length : α) :=
    div_nonneg hTE (Nat.cast_nonneg _)
  have hsum : (0 : α) ≤ (((cumsum g 0).map
      (fun c => c * (TE / (g.length : α)) * 267519870)).map (fun x => x * x)).sum := by
    apply List.sum_nonneg
    intro x hx
    obtain ⟨y, -, rfl⟩ := List.mem_map.mp hx
    exact mul_self_nonneg y
  have h1 : (0 : α) ≤ (((cumsum g 0).map
      (fun c => c * (TE / (g.length : α)) * 267519870)).map (fun x => x * x)).sum *
      (TE / (g.length : α)) := mul_nonneg hsum hdt
  positivity

lemma col_append_left (a l : List α) (j : ℕ) (h : j < a.length) :
    col (a ++ l) j = col a j := by
  simp [col, List.getD_eq_getElem?_getD, List.getElem?_append_left h]

lemma col_append_right (a l : List α) (j : ℕ) (h : a.length ≤ j) :
    col (a ++ l) j = col l (j - a.length) := by
  simp [col, List.getD_eq_getElem?_getD, List.getElem?_append_right h]

/-- Round trip of `to_version_1`'s gradient strength through the
Stejskal-Tanner formula: the `1e-6` factor of the b-value formula is NOT
compensated by the conversion, so a factor `1e-6` survives. -/
lemma bST_of_sqrt (b : ℝ) (hb : 0 ≤ b) :
    (267513000 * Real.sqrt (b / (267513000 * 267513000 * ((1 : ℝ) / 100) *
        (1 / 100) * (25 / 1000 - (1 / 100) / 3))) * (1 / 100)) ^ 2 *
      ((25 : ℝ) / 1000 - (1 / 100) / 3) * (1 / 1000000) = b * (1 / 1000000) := by
  have hK : (0 : ℝ) < 267513000 * 267513000 * (1 / 100) * (1 / 100) *
      (25 / 1000 - (1 / 100) / 3) := by norm_num
  have hs := Real.sq_sqrt (div_nonneg hb hK.le)
  rw [mul_pow, mul_pow, hs]
  field_simp
  ring

lemma normalizeRow_eq_self (r : List α) (h : 0 ≤ col r 1) : normalizeRow r = r := by
  unfold normalizeRow
  rw [if_neg (not_lt.mpr h)]

/-- Structure of `to_version_1` on a WAVEFORM scheme over the reals: the
conversion succeeds, produces a version-1 scheme whose directions are copied,
whose column 6 is the source TE, whose column 3 is
`sqrt(b / (gamma^2 delta^2 (Delta - delta/3)))`, whose columns 4 and 5 are
the fixed `Delta = 0.025` and `delta = 0.010`, and whose b-values are the
source b-values SCALED BY 1e-6 (not reproduced). -/
lemma to_version_1_wf_spec (data : List (List ℝ)) (M : ℕ) (thr : ℝ) (s : Scheme ℝ)
    (hrect : ∀ r ∈ data, r.length = M) (hM : 8 ≤ M)
    (hTE : ∀ r ∈ data, 0 ≤ col r 3)
    (hload : load_from_table data thr = some s) :
    ∃ s', to_version_1 Real.sqrt s = some s' ∧ s'.version = 1 ∧
      s'.b = s.b.map (fun v => v * (1 / 1000000)) ∧
      s'.raw.map (List.take 3) = s.raw.map (List.take 3) ∧
      s'.raw.map (fun r => col r 6) = s.raw.map (fun r => col r 3) ∧
      s'.raw.map (fun r => col r 3) = s.b.map (fun v => Real.sqrt (v /
        (267513000 * 267513000 * ((1 : ℝ) / 100) * (1 / 100) *
          (25 / 1000 - (1 / 100) / 3)))) ∧
      s'.raw.map (fun r => col r 4) = data.map (fun _ => (25 / 1000 : ℝ)) ∧
      s'.raw.map (fun r => col r 5) = data.map (fun _ => ((1 : ℝ) / 100)) := by
  have hne := load_ne_nil hload
  have hcols : ncols data = M := ncols_rect hne hrect
  obtain ⟨hv2, hb⟩ := load_version_wf hload (by omega)
  have hraw := (load_spec hload).2.1
  have hstep : to_version_1 Real.sqrt s =
      load_from_table ((s.raw.zip (s.b.map (fun v => Real.sqrt (v /
        (267513000 * 267513000 * ((1 : ℝ) / 100) * (1 / 100) *
          (25 / 1000 - (1 / 100) / 3)))))).map
        (fun rg => rg.1.take 3 ++ [rg.2, (25 / 1000 : ℝ), (1 : ℝ) / 100,
          col rg.1 3])) 0 := by
    unfold to_version_1
    rw [hv2, if_neg (by decide), if_pos rfl]
  have hdataBis : ((s.raw.zip (s.b.map (fun v => Real.sqrt (v /
        (267513000 * 267513000 * ((1 : ℝ) / 100) * (1 / 100) *
          (25 / 1000 - (1 / 100) / 3)))))).map
        (fun rg => rg.1.take 3 ++ [rg.2, (25 / 1000 : ℝ), (1 : ℝ) / 100,
          col rg.1 3])) =
      data.map (fun r => (normalizeRow r).take 3 ++
        [Real.sqrt (compute1D_b (r.drop 4) (col r 3) "usual" /
          (267513000 * 267513000 * ((1 : ℝ) / 100) * (1 / 100) *
            (25 / 1000 - (1 / 100) / 3))),
         (25 / 1000 : ℝ), (1 : ℝ) / 100, col (normalizeRow r) 3]) := by
    rw [hraw, hb, List.map_map, List.zip_map', List.map_map]
    rfl
  have hlen3 : ∀ r ∈ data, ((normalizeRow r).take 3).length = 3 := by
    intro r hr
    rw [List.length_take, length_normalizeRow, hrect r hr]
    omega
  have hcol1 : ∀ r ∈ data, col ((normalizeRow r).take 3 ++
      [Real.sqrt (compute1D_b (r.drop 4) (col r 3) "usual" /
        (267513000 * 267513000 * ((1 : ℝ) / 100) * (1 / 100) *
          (25 / 1000 - (1 / 100) / 3))),
       (25 / 1000 : ℝ), (1 : ℝ) / 100, col (normalizeRow r) 3]) 1 =
      col (normalizeRow r) 1 := by
    intro r hr
    rw [col_append_left _ _ 1 (by rw [hlen3 r hr]; omega)]
    unfold col
    rw [getD_take_of_lt _ _ _ _ (by omega)]
  have hnormφ : ∀ r ∈ data, normalizeRow ((normalizeRow r).take 3 ++
      [Real.sqrt (compute1D_b (r.drop 4) (col r 3) "usual" /
        (267513000 * 267513000 * ((1 : ℝ) / 100) * (1 / 100) *
          (25 / 1000 - (1 / 100) / 3))),
       (25 / 1000 : ℝ), (1 : ℝ) / 100, col (normalizeRow r) 3]) =
      (normalizeRow r).take 3 ++
      [Real.sqrt (compute1D_b (r.drop 4) (col r 3) "usual" /
        (267513000 * 267513000 * ((1 : ℝ) / 100) * (1 / 100) *
          (25 / 1000 - (1 / 100) / 3))),
       (25 / 1000 : ℝ), (1 : ℝ) / 100, col (normalizeRow r) 3] := by
    intro r hr
    refine normalizeRow_eq_self _ ?_
    rw [hcol1 r hr]
    exact normalizeRow_col1_nonneg r
  have hlen7 : ∀ r' ∈ data.map (fun r => (normalizeRow r).take 3 ++
      [Real.sqrt (compute1D_b (r.drop 4) (col r 3) "usual" /
        (267513000 * 267513000 * ((1 : ℝ) / 100) * (1 / 100) *
          (25 / 1000 - (1 / 100) / 3))),
       (25 / 1000 : ℝ), (1 : ℝ) / 100, col (normalizeRow r) 3]),
      r'.length = 7 := by
    intro r' hr'
    obtain ⟨r, hr, rfl⟩ := List.mem_map.mp hr'
    rw [List.length_append, hlen3 r hr]
    rfl
  have hneD : data.map (fun r => (normalizeRow r).take 3 ++
      [Real.sqrt (compute1D_b (r.drop 4) (col r 3) "usual" /
        (267513000 * 267513000 * ((1 : ℝ) / 100) * (1 / 100) *
          (25 / 1000 - (1 / 100) / 3))),
       (25 / 1000 : ℝ), (1 : ℝ) / 100, col (normalizeRow r) 3]) ≠ [] := by
    simpa using hne
  have hcolsD := ncols_rect hneD hlen7
  obtain ⟨s', hs'⟩ := load_isSome_of_recognized _ 0 (Or.inr (Or.inl hcolsD))
  obtain ⟨hv1, hb'⟩ := load_version_seven hs' hcolsD
  have hraw' := (load_spec hs').2.1
  have hraw'2 : s'.raw = data.map (fun r => (normalizeRow r).take 3 ++
      [Real.sqrt (compute1D_b (r.drop 4) (col r 3) "usual" /
        (267513000 * 267513000 * ((1 : ℝ) / 100) * (1 / 100) *
          (25 / 1000 - (1 / 100) / 3))),
       (25 / 1000 : ℝ), (1 : ℝ) / 100, col (normalizeRow r) 3]) := by
    rw [hraw', List.map_map]
    exact List.map_congr_left (fun r hr => hnormφ r hr)
  have hcol3 : ∀ r ∈ data, col ((normalizeRow r).take 3 ++
      [Real.sqrt (compute1D_b (r.drop 4) (col r 3) "usual" /
        (267513000 * 267513000 * ((1 : ℝ) / 100) * (1 / 100) *
          (25 / 1000 - (1 / 100) / 3))),
       (25 / 1000 : ℝ), (1 : ℝ) / 100, col (normalizeRow r) 3]) 3 =
      Real.sqrt (compute1D_b (r.drop 4) (col r 3) "usual" /
        (267513000 * 267513000 * ((1 : ℝ) / 100) * (1 / 100) *
          (25 / 1000 - (1 / 100) / 3))) := by
    intro r hr
    rw [col_append_right _ _ 3 (by rw [hlen3 r hr]), hlen3 r hr]
    rfl
  have hcol4 : ∀ r ∈ data, col ((normalizeRow r).take 3 ++
      [Real.sqrt (compute1D_b (r.drop 4) (col r 3) "usual" /
        (267513000 * 267513000 * ((1 : ℝ) / 100) * (1 / 100) *
          (25 / 1000 - (1 / 100) / 3))),
       (25 / 1000 : ℝ), (1 : ℝ) / 100, col (normalizeRow r) 3]) 4 =
      (25 / 1000 : ℝ) := by
    intro r hr
    rw [col_append_right _ _ 4 (by rw [hlen3 r hr]; omega), hlen3 r hr]
    rfl
  have hcol5 : ∀ r ∈ data, col ((normalizeRow r).take 3 ++
      [Real.sqrt (compute1D_b (r.drop 4) (col r 3) "usual" /
        (267513000 * 267513000 * ((1 : ℝ) / 100) * (1 / 100) *
          (25 / 1000 - (1 / 100) / 3))),
       (25 / 1000 : ℝ), (1 : ℝ) / 100, col (normalizeRow r) 3]) 5 =
      ((1 : ℝ) / 100) := by
    intro r hr
    rw [col_append_right _ _ 5 (by rw [hlen3 r hr]; omega), hlen3 r hr]
    rfl
  have hcol6 : ∀ r ∈ data, col ((normalizeRow r).take 3 ++
      [Real.sqrt (compute1D_b (r.drop 4) (col r 3) "usual" /
        (267513000 * 267513000 * ((1 : ℝ) / 100) * (1 / 100) *
          (25 / 1000 - (1 / 100) / 3))),
       (25 / 1000 : ℝ), (1 : ℝ) / 100, col (normalizeRow r) 3]) 6 =
      col (normalizeRow r) 3 := by
    intro r hr
    rw [col_append_right _ _ 6 (by rw [hlen3 r hr]; omega), hlen3 r hr]
    rfl
  refine ⟨s', ?_, hv1, ?_, ?_, ?_, ?_, ?_, ?_⟩
  · rw [hstep, hdataBis]
    exact hs'
  · rw [hb', hb, List.map_map, List.map_map]
    apply List.map_congr_left
    intro r hr
    show bST ((normalizeRow r).take 3 ++
      [Real.sqrt (compute1D_b (r.drop 4) (col r 3) "usual" /
        (267513000 * 267513000 * ((1 : ℝ) / 100) * (1 / 100) *
          (25 / 1000 - (1 / 100) / 3))),
       (25 / 1000 : ℝ), (1 : ℝ) / 100, col (normalizeRow r) 3]) =
      compute1D_b (r.drop 4) (col r 3) "usual" * (1 / 1000000)
    unfold bST
    rw [hcol3 r hr, hcol4 r hr, hcol5 r hr]
    exact bST_of_sqrt _ (compute1D_b_nonneg _ _ (hTE r hr))
  · rw [hraw'2, hraw, List.map_map, List.map_map]
    apply List.map_congr_left
    intro r hr
    exact List.take_left' (hlen3 r hr)
  · rw [hraw'2, hraw, List.map_map, List.map_map]
    apply List.map_congr_left
    intro r hr
    exact hcol6 r hr
  · rw [hraw'2, hb, List.map_map, List.map_map]
    apply List.map_congr_left
    intro r hr
    exact hcol3 r hr
  · rw [hraw'2, List.map_map]
    apply List.map_congr_left
    intro r hr
    exact hcol4 r hr
  · rw [hraw'2, List.map_map]
    apply List.map_congr_left
    intro r hr
    exact hcol5 r hr

/-- C1 (corrected): for every WAVEFORM scheme over the reals (rectangular
table, more than 7 columns, non-negative TE column), `to_version_1` builds a
brand-new STEJSKAL_TANNER scheme whose columns 0-2 are copied from the
source directions, whose column 3 is
`G = sqrt(b / (gamma^2 delta^2 (Delta - delta/3)))` with
`gamma = 267.513e6, delta = 0.010, Delta = 0.025`, whose columns 4 and 5 are
those fixed `Delta` and `delta`, and whose column 6 is the source TE
column 3 — but re-deriving the b-value of each row through the
Stejskal-Tanner formula yields the source row's b-value TIMES 1e-6, not the
original b-value (the conversion omits the 1e-6 unit factor of the
Stejskal-Tanner b-value formula). -/
theorem to_version_1_roundtrip_scaled (data : List (List ℝ)) (M : ℕ) (thr : ℝ)
    (s : Scheme ℝ) (hrect : ∀ r ∈ data, r.length = M) (hM : 8 ≤ M)
    (hTE : ∀ r ∈ data, 0 ≤ col r 3)
    (hload : load_from_table data thr = some s) :
    ∃ s', to_version_1 Real.sqrt s = some s' ∧ s'.version = 1 ∧
      ∀ i < s.raw.length,
        (s'.raw.getD i []).take 3 = (s.raw.getD i []).take 3 ∧
        col (s'.raw.getD i []) 6 = col (s.raw.getD i []) 3 ∧
        col (s'.raw.getD i []) 3 = Real.sqrt (s.b.getD i 0 /
          (267513000 * 267513000 * ((1 : ℝ) / 100) * (1 / 100) *
            (25 / 1000 - (1 / 100) / 3))) ∧
        col (s'.raw.getD i []) 4 = (25 / 1000 : ℝ) ∧
        col (s'.raw.getD i []) 5 = ((1 : ℝ) / 100) ∧
        s'.b.getD i 0 = s.b.getD i 0 * (1 / 1000000) := by
  obtain ⟨s', h1, h2, hb', htake, hcol6, hcol3, hcol4, hcol5⟩ :=
    to_version_1_wf_spec data M thr s hrect hM hTE hload
  have hrawlen := load_raw_length hload
  have hblen := load_b_length hload
  have hlen' : s'.raw.length = s.raw.length := by
    have := congrArg List.length htake
    simpa using this
  have hlenD : s'.raw.length = data.length := by rw [hlen', hrawlen]
  refine ⟨s', h1, h2, ?_⟩
  intro i hi
  have hi' : i < s'.raw.length := by rw [hlen']; exact hi
  have hiD : i < data.length := by rw [← hrawlen]; exact hi
  have hib : i < s.b.length := by rw [hblen]; exact hiD
  refine ⟨?_, ?_, ?_, ?_, ?_, ?_⟩
  · have := congrArg (fun l => l.getD i ([] : List ℝ)) htake
    simpa only [getD_map_of_lt s'.raw _ i [] [] hi',
      getD_map_of_lt s.raw _ i [] [] hi] using this
  · have := congrArg (fun l => l.getD i (0 : ℝ)) hcol6
    simpa only [getD_map_of_lt s'.raw (fun r => col r 6) i [] 0 hi',
      getD_map_of_lt s.raw (fun r => col r 3) i [] 0 hi] using this
  · have := congrArg (fun l => l.getD i (0 : ℝ)) hcol3
    simpa only [getD_map_of_lt s'.raw (fun r => col r 3) i [] 0 hi',
      getD_map_of_lt s.b (fun v => Real.sqrt (v /
        (267513000 * 267513000 * ((1 : ℝ) / 100) * (1 / 100) *
          (25 / 1000 - (1 / 100) / 3)))) i 0 0 hib] using this
  · have := congrArg (fun l => l.getD i (0 : ℝ)) hcol4
    simpa only [getD_map_of_lt s'.raw (fun r => col r 4) i [] 0 hi',
      getD_map_of_lt data (fun _ => (25 / 1000 : ℝ)) i [] 0 hiD] using this
  · have := congrArg (fun l => l.getD i (0 : ℝ)) hcol5
    simpa only [getD_map_of_lt s'.raw (fun r => col r 5) i [] 0 hi',
      getD_map_of_lt data (fun _ => ((1 : ℝ) / 100)) i [] 0 hiD] using this
  · rw [hb', getD_map_of_lt s.b _ i 0 0 hib]

/-- Counterexample for C1 as stated: on the concrete WAVEFORM table `TwfR`,
the scheme built by `to_version_1` re-derives a b-value that is 1e-6 times
the source b-value — not the source b-value, and not within any reasonable
relative tolerance of it (checked here against a generous 1e-3). -/
theorem to_version_1_roundtrip_counterexample :
    ((load_from_table TwfR 0).bind (to_version_1 Real.sqrt)).map Scheme.b =
      some [4 * 267519870 ^ 2 / 1000000 * (1 / 1000000)] ∧
    (load_from_table TwfR 0).map Scheme.b = some [4 * 267519870 ^ 2 / 1000000] ∧
    ¬ |4 * 267519870 ^ 2 / 1000000 * ((1 : ℝ) / 1000000) -
        4 * 267519870 ^ 2 / 1000000| ≤
      (1 / 1000) * (4 * 267519870 ^ 2 / 1000000) := by
  obtain ⟨s, hs⟩ := load_isSome_of_recognized TwfR (0 : ℝ)
    (Or.inr (Or.inr (by decide)))
  have hTE : ∀ r ∈ TwfR, 0 ≤ col r 3 := by
    intro r hr
    simp only [TwfR, List.mem_singleton] at hr
    subst hr
    norm_num [col]
  obtain ⟨s', h1, -, hb', -⟩ :=
    to_version_1_wf_spec TwfR 8 0 s (by decide) (by norm_num) hTE hs
  have hsb : s.b = [4 * 267519870 ^ 2 / 1000000] := by
    have h2 : (load_from_table TwfR (0 : ℝ)).map Scheme.b =
        some [4 * 267519870 ^ 2 / 1000000] := by
      norm_num [TwfR, load_from_table, bvalsOf, ncols, compute1D_b, cumsum, col]
    rw [hs, Option.map_some', Option.some.injEq] at h2
    exact h2
  refine ⟨?_, ?_, ?_⟩
  · rw [hs, Option.some_bind, h1, Option.map_some', hb', hsb]
    norm_num
  · rw [hs, Option.map_some', hsb]
  · rw [not_le, abs_of_neg (by norm_num : (4 * 267519870 ^ 2 / 1000000 *
      ((1 : ℝ) / 1000000) - 4 * 267519870 ^ 2 / 1000000) < 0)]
    norm_num

lemma TwfR_isSome : (load_from_table TwfR (0 : ℝ)).isSome := by decide

/-- Witness for the corrected C1 on the concrete table `TwfR`. -/
theorem to_version_1_roundtrip_scaled_witness :
    ∃ s', to_version_1 Real.sqrt ((load_from_table TwfR 0).get TwfR_isSome) =
        some s' ∧ s'.version = 1 ∧
      ∀ i < ((load_from_table TwfR 0).get TwfR_isSome).raw.length,
        (s'.raw.getD i []).take 3 =
          (((load_from_table TwfR 0).get TwfR_isSome).raw.getD i []).take 3 ∧
        col (s'.raw.getD i []) 6 =
          col (((load_from_table TwfR 0).get TwfR_isSome).raw.getD i []) 3 ∧
        col (s'.raw.getD i []) 3 = Real.sqrt
          (((load_from_table TwfR 0).get TwfR_isSome).b.getD i 0 /
          (267513000 * 267513000 * ((1 : ℝ) / 100) * (1 / 100) *
            (25 / 1000 - (1 / 100) / 3))) ∧
        col (s'.raw.getD i []) 4 = (25 / 1000 : ℝ) ∧
        col (s'.raw.getD i []) 5 = ((1 : ℝ) / 100) ∧
        s'.b.getD i 0 =
          ((load_from_table TwfR 0).get TwfR_isSome).b.getD i 0 * (1 / 1000000) := by
  refine to_version_1_roundtrip_scaled TwfR 8 0 _ (by decide) (by norm_num) ?_
    (Option.some_get TwfR_isSome).symm
  intro r hr
  simp only [TwfR, List.mem_singleton] at hr
  subst hr
  norm_num [col]

/-! ### Serialization lemmas (C9) -/

lemma range_map_getD {β γ : Type} (l : List β) (d : β) (F : β → γ) :
    (List.range l.length).map (fun i => F (l.getD i d)) = l.map F := by
  induction l with
  | nil => simp
  | cons x xs ih =>
    rw [List.length_cons, List.range_succ_eq_map, List.map_cons, List.map_map]
    have h2 : (List.range xs.length).map ((fun i => F ((x :: xs).getD i d)) ∘ Nat.succ)
        = (List.range xs.length).map (fun i => F (xs.getD i d)) := by
      apply List.map_congr_left
      intro i hi
      show F ((x :: xs).getD (i + 1) d) = F (xs.getD i d)
      rw [List.getD_cons_succ]
    rw [h2, ih]
    rfl

lemma write_Camino_wf_eq_line (fmt : ℚ → String) (r : List ℚ) :
    write_Camino_wf fmt (r.drop 4).length (col r 3)
      ((r.drop 4).map (fun v => col r 0 * v))
      ((r.drop 4).map (fun v => col r 1 * v))
      ((r.drop 4).map (fun v => col r 2 * v)) = camino_wf_line_claim fmt r := by
  unfold write_Camino_wf camino_wf_line_claim
  have hjoin : (List.range (r.drop 4).length).map (fun i =>
      fmt (pyRound 5 (((r.drop 4).map (fun v => col r 0 * v)).getD i 0)) ++ " " ++
      fmt (pyRound 5 (((r.drop 4).map (fun v => col r 1 * v)).getD i 0)) ++ " " ++
      fmt (pyRound 5 (((r.drop 4).map (fun v => col r 2 * v)).getD i 0)) ++ " ") =
      (r.drop 4).map (fun v =>
      fmt (pyRound 5 (col r 0 * v)) ++ " " ++
      fmt (pyRound 5 (col r 1 * v)) ++ " " ++
      fmt (pyRound 5 (col r 2 * v)) ++ " ") := by
    have h1 : ∀ i ∈ List.range (r.drop 4).length,
        fmt (pyRound 5 (((r.drop 4).map (fun v => col r 0 * v)).getD i 0)) ++ " " ++
        fmt (pyRound 5 (((r.drop 4).map (fun v => col r 1 * v)).getD i 0)) ++ " " ++
        fmt (pyRound 5 (((r.drop 4).map (fun v => col r 2 * v)).getD i 0)) ++ " " =
        fmt (pyRound 5 (col r 0 * (r.drop 4).getD i 0)) ++ " " ++
        fmt (pyRound 5 (col r 1 * (r.drop 4).getD i 0)) ++ " " ++
        fmt (pyRound 5 (col r 2 * (r.drop 4).getD i 0)) ++ " " := by
      intro i hi
      have hlt : i < (r.drop 4).length := List.mem_range.mp hi
      rw [getD_map_of_lt (r.drop 4) (fun v => col r 0 * v) i 0 0 hlt,
        getD_map_of_lt (r.drop 4) (fun v => col r 1 * v) i 0 0 hlt,
        getD_map_of_lt (r.drop 4) (fun v => col r 2 * v) i 0 0 hlt]
    rw [List.map_congr_left h1, range_map_getD (r.drop 4) 0 (fun v =>
      fmt (pyRound 5 (col r 0 * v)) ++ " " ++
      fmt (pyRound 5 (col r 1 * v)) ++ " " ++
      fmt (pyRound 5 (col r 2 * v)) ++ " ")]
  rw [hjoin]

/-- The GRADIENT_WAVEFORM serialization equals the claim's text with the
header carrying the source's trailing space. -/
lemma write_Camino_schemefile_wf_eq (fmt : ℚ → String) (s : Scheme ℚ) :
    write_Camino_schemefile_wf fmt s =
      "VERSION: GRADIENT_WAVEFORM \n" ++
        String.join (s.raw.map (camino_wf_line_claim fmt)) := by
  unfold write_Camino_schemefile_wf
  congr 1
  congr 1
  apply List.map_congr_left
  intro r hr
  exact write_Camino_wf_eq_line fmt r

/-- No string with the source's header line (trailing space before the
newline) equals a string with the claim's header line (no trailing space):
they differ at character 26. -/
lemma header_space_ne (X Y : String) :
    "VERSION: GRADIENT_WAVEFORM \n" ++ X ≠ "VERSION: GRADIENT_WAVEFORM\n" ++ Y := by
  intro h
  have hd := congrArg String.data h
  rw [String.data_append, String.data_append] at hd
  have h26 := congrArg (fun l => l.getD 26 'x') hd
  simp only at h26
  rw [List.getD_eq_getElem?_getD, List.getD_eq_getElem?_getD,
    List.getElem?_append_left (by decide), List.getElem?_append_left (by decide)]
    at h26
  exact absurd h26 (by decide)

/-- C9 (corrected): serializing a WAVEFORM scheme writes the header line
`VERSION: GRADIENT_WAVEFORM ` — with a trailing space before the newline —
then, for each row, one line beginning with the sample count and
`dt = TE/sample_count`, followed for each sample by the waveform sample
scaled by the row's x, y and z direction components, each value rounded to
5 decimal places and followed by a space, with a trailing space before the
newline.  (`fmt` stands for the platform's float-to-decimal rendering.) -/
theorem write_camino_wf_text (fmt : ℚ → String) (s : Scheme ℚ) :
    write_Camino_schemefile_wf fmt s =
      "VERSION: GRADIENT_WAVEFORM \n" ++
        String.join (s.raw.map (camino_wf_line_claim fmt)) :=
  write_Camino_schemefile_wf_eq fmt s

lemma Twf2_isSome : (load_from_table Twf2 (0 : ℚ)).isSome := by decide

/-- Counterexample for C9 as stated: on the concrete WAVEFORM table `Twf2`,
the text written by the source differs from the claim's text (the source's
header line carries a trailing space before the newline). -/
theorem write_camino_wf_header_counterexample :
    (load_from_table Twf2 0).map (write_Camino_schemefile_wf (fun _ => "0")) ≠
      (load_from_table Twf2 0).map
        (write_Camino_schemefile_wf_claim (fun _ => "0")) := by
  obtain ⟨s, hs⟩ := load_isSome_of_recognized Twf2 (0 : ℚ)
    (Or.inr (Or.inr (by decide)))
  rw [hs, Option.map_some', Option.map_some', Ne, Option.some.injEq]
  rw [write_Camino_schemefile_wf_eq]
  show "VERSION: GRADIENT_WAVEFORM \n" ++ _ ≠ "VERSION: GRADIENT_WAVEFORM\n" ++ _
  exact header_space_ne _ _

end Amico
